import Mathlib

/-!
Verification development for the DialByName fuzzy word matcher
(offline/word_matcher.py).

Modelling conventions:
* Strings are modelled as lists of characters (abbreviation Str), over their
  ASCII fragment: the Python regex classes are modelled by explicit character
  predicates that agree with Python on ASCII input.
* Python floats are modelled by exact fractions.  Scores are represented by
  the kernel-computable type Frac (an integer numerator over a natural
  denominator, compared by cross multiplication) and interpreted into the
  rationals by Frac.toRat for order-theoretic reasoning.  Floating point
  rounding is outside the scope of this model.
* difflib.SequenceMatcher.ratio is standard-library code, not repository
  code; it is modelled from the specification (section 4.4): the
  Ratcliff-Obershelp ratio 2M/(len(a)+len(b)), where M accumulates greedy
  leftmost longest common substrings recursively, together with the
  guard of the standard library that a zero total length yields ratio 1.
  The junk heuristics of difflib (which only affect sequences of length
  at least 200) are not modelled.
* Python exceptions (KeyError on a record without the word field,
  ValueError of max() on an empty sequence) are modelled by Except / Option
  results: a none / error outcome means the Python code raises.
-/

namespace DialByName

set_option maxRecDepth 100000

abbrev Str := List Char

def str (s : String) : Str := s.toList

/-! ## Character predicates (ASCII fragments of the Python regex classes) -/

/-- Whitespace characters of the Python regex class backslash-s (ASCII). -/
def pyIsSpace (c : Char) : Bool :=
  c = ' ' || c = '\t' || c = '\n' || c = '\x0d' || c = '\x0b' || c = '\x0c'

/-- Word characters of the Python regex class backslash-w (ASCII): letters,
digits and the underscore. -/
def pyIsWordChar (c : Char) : Bool :=
  c.isAlpha || c.isDigit || c = '_'

def lowerStr (s : Str) : Str := s.map Char.toLower

/-! ## Splitting on whitespace (Python str.split with no argument) -/

/-- Helper of pySplit: cur is the word collected so far. -/
def splitAux : Str → Str → List Str
  | [], cur => if cur = [] then [] else [cur]
  | c :: rest, cur =>
    if pyIsSpace c then
      if cur = [] then splitAux rest [] else cur :: splitAux rest []
    else splitAux rest (cur ++ [c])

/-- Port of Python str.split() (split on whitespace runs, no empty parts). -/
def pySplit (s : Str) : List Str := splitAux s []

/-- Port of Python sep.join for a single space separator. -/
def joinSp : List Str → Str
  | [] => []
  | [w] => w
  | w :: rest => w ++ ' ' :: joinSp rest

/-! ## Substring and prefix tests (the Python in operator on strings) -/

def startsWith : Str → Str → Bool
  | _, [] => true
  | [], _ :: _ => false
  | c :: s, p :: ps => c = p && startsWith s ps

/-- Port of the Python substring test (p in s). -/
def containsSub (s p : Str) : Bool :=
  startsWith s p ||
    match s with
    | [] => false
    | _ :: t => containsSub t p

/-! ## Normalizer: port of WordMatcher._normalize_text -/

/-- Characters kept by the regex sub of [^ backslash-w backslash-s ]. -/
def keepChar (c : Char) : Bool := pyIsWordChar c || pyIsSpace c

/-- State machine for the regex sub replacing every whitespace run by one
space: inRun records whether the previous character was whitespace. -/
def collapseWs (inRun : Bool) : Str → Str
  | [] => []
  | c :: rest =>
    if pyIsSpace c then
      if inRun then collapseWs true rest else ' ' :: collapseWs true rest
    else c :: collapseWs false rest

/-- Port of Python str.strip() (drop whitespace from both ends). -/
def stripWs (l : Str) : Str :=
  ((l.dropWhile pyIsSpace).reverse.dropWhile pyIsSpace).reverse

/-- Port of WordMatcher._normalize_text: lowercase, delete every character
that is neither a word character nor whitespace, collapse whitespace runs
to one space, strip the ends. -/
def normalize_text (s : Str) : Str :=
  stripWs (collapseWs false ((lowerStr s).filter keepChar))

/-! ## Phonetic encoder: port of WordMatcher._get_phonetic_key -/

/-- Fuel-driven port of Python str.replace (all non-overlapping occurrences,
left to right).  The fuel only serves structural recursion; it is always
called with more fuel than the length of the scanned string. -/
def replaceAllAux (pat rep : Str) : Nat → Str → Str
  | 0, s => s
  | _ + 1, [] => []
  | fuel + 1, c :: rest =>
    if startsWith (c :: rest) pat ∧ pat ≠ [] then
      rep ++ replaceAllAux pat rep fuel ((c :: rest).drop pat.length)
    else c :: replaceAllAux pat rep fuel rest

def replace_all (pat rep s : Str) : Str := replaceAllAux pat rep (s.length + 1) s

/-- The ordered sound-pattern table of _get_phonetic_key (Python dict
insertion order). -/
def phoneticTable : List (Str × Str) :=
  [ (str "ph", str "f"), (str "ough", str "o"), (str "gh", str ""),
    (str "kn", str "n"), (str "wr", str "r"), (str "mb", str "m"),
    (str "ce", str "s"), (str "ci", str "s"), (str "cy", str "s"),
    (str "ge", str "j"), (str "gi", str "j"), (str "gy", str "j"),
    (str "chr", str "kr"), (str "ck", str "k"), (str "cc", str "k"),
    (str "que", str "k"), (str "x", str "ks"), (str "wh", str "w"),
    (str "rh", str "r"), (str "ae", str "e"), (str "oe", str "e"),
    (str "eau", str "o"), (str "au", str "o"), (str "ou", str "u"),
    (str "oo", str "u"), (str "ee", str "i"), (str "ea", str "i"),
    (str "ai", str "ay"), (str "ay", str "ay"), (str "ey", str "ay"),
    (str "ch", str "k"), (str "tch", str "ch"), (str "th", str "t"),
    (str "sh", str "s"), (str "zh", str "j"), (str "dg", str "j") ]

/-- Helper of the regex sub collapsing runs of one repeated character:
prev is the character just emitted. -/
def squeezeAux (prev : Char) : Str → Str
  | [] => []
  | c :: rest => if c = prev then squeezeAux prev rest else c :: squeezeAux c rest

/-- Port of the regex sub replacing any run of one repeated character by a
single occurrence. -/
def squeeze : Str → Str
  | [] => []
  | c :: rest => c :: squeezeAux c rest

def isVowel (c : Char) : Bool :=
  c = 'a' || c = 'e' || c = 'i' || c = 'o' || c = 'u'

/-- Per-word vowel stripping: keep the first character, delete vowels from
the rest (words produced by pySplit are never empty). -/
def stripVowelsWord : Str → Str
  | [] => []
  | c :: rest => c :: rest.filter (fun d => !isVowel d)

/-- Port of WordMatcher._get_phonetic_key. -/
def get_phonetic_key (s : Str) : Str :=
  let t := phoneticTable.foldl (fun acc pr => replace_all pr.1 pr.2 acc) (lowerStr s)
  let t := squeeze t
  joinSp ((pySplit t).map stripVowelsWord)

/-! ## Exact score arithmetic (model of Python float arithmetic) -/

/-- A score: an exact fraction with integer numerator and natural
denominator.  Fractions are not normalized; all comparisons cross
multiply, so values compare like the rationals they denote.  Every
fraction the matcher builds has a non-zero denominator (predicate WF). -/
structure Frac where
  num : Int
  den : Nat
deriving DecidableEq

def Frac.WF (x : Frac) : Prop := x.den ≠ 0

def Frac.toRat (x : Frac) : ℚ := (x.num : ℚ) / (x.den : ℚ)

def Frac.add (x y : Frac) : Frac := ⟨x.num * y.den + y.num * x.den, x.den * y.den⟩

def Frac.sub (x y : Frac) : Frac := ⟨x.num * y.den - y.num * x.den, x.den * y.den⟩

def Frac.mul (x y : Frac) : Frac := ⟨x.num * y.num, x.den * y.den⟩

def Frac.ble (x y : Frac) : Bool := decide (x.num * (y.den : Int) ≤ y.num * (x.den : Int))

def Frac.blt (x y : Frac) : Bool := decide (x.num * (y.den : Int) < y.num * (x.den : Int))

def Frac.beq (x y : Frac) : Bool := decide (x.num * (y.den : Int) = y.num * (x.den : Int))

/-- Python max of two floats (the first argument wins ties). -/
def fmax (x y : Frac) : Frac := if Frac.blt x y then y else x

/-- Python min of two floats (the first argument wins ties). -/
def fmin (x y : Frac) : Frac := if Frac.blt y x then y else x

/-- Python sum of a list of floats (starts from integer 0). -/
def fsum (l : List Frac) : Frac := l.foldl Frac.add ⟨0, 1⟩

/-- Division of a sum by a list length (the call sites guard the length to
be non-zero). -/
def favg (l : List Frac) : Frac := ⟨(fsum l).num, (fsum l).den * l.length⟩

/-- Python max of a non-empty list of floats; the default on the empty list
is never used (the call sites guard non-emptiness, and the one unguarded
Python call site is modelled as an error before this is evaluated). -/
def fmaxList : List Frac → Frac
  | [] => ⟨0, 1⟩
  | x :: xs => xs.foldl fmax x

/-! ### Bridge lemmas from Frac to the rationals -/

theorem Frac.den_posQ {x : Frac} (hx : x.WF) : (0 : ℚ) < (x.den : ℚ) := by
  exact_mod_cast Nat.pos_of_ne_zero hx

theorem Frac.den_neQ {x : Frac} (hx : x.WF) : ((x.den : ℚ)) ≠ 0 :=
  ne_of_gt (Frac.den_posQ hx)

theorem Frac.wf_add {x y : Frac} (hx : x.WF) (hy : y.WF) : (x.add y).WF :=
  Nat.mul_ne_zero hx hy

theorem Frac.wf_sub {x y : Frac} (hx : x.WF) (hy : y.WF) : (x.sub y).WF :=
  Nat.mul_ne_zero hx hy

theorem Frac.wf_mul {x y : Frac} (hx : x.WF) (hy : y.WF) : (x.mul y).WF :=
  Nat.mul_ne_zero hx hy

theorem Frac.toRat_add {x y : Frac} (hx : x.WF) (hy : y.WF) :
    (x.add y).toRat = x.toRat + y.toRat := by
  unfold Frac.toRat Frac.add
  have h1 := Frac.den_neQ hx
  have h2 := Frac.den_neQ hy
  push_cast
  field_simp

theorem Frac.toRat_sub {x y : Frac} (hx : x.WF) (hy : y.WF) :
    (x.sub y).toRat = x.toRat - y.toRat := by
  unfold Frac.toRat Frac.sub
  have h1 := Frac.den_neQ hx
  have h2 := Frac.den_neQ hy
  push_cast
  field_simp
  ring

theorem Frac.toRat_mul {x y : Frac} (hx : x.WF) (hy : y.WF) :
    (x.mul y).toRat = x.toRat * y.toRat := by
  unfold Frac.toRat Frac.mul
  have h1 := Frac.den_neQ hx
  have h2 := Frac.den_neQ hy
  push_cast
  field_simp

theorem Frac.ble_iff {x y : Frac} (hx : x.WF) (hy : y.WF) :
    x.ble y = true ↔ x.toRat ≤ y.toRat := by
  unfold Frac.ble Frac.toRat
  rw [div_le_div_iff₀ (Frac.den_posQ hx) (Frac.den_posQ hy)]
  rw [decide_eq_true_eq]
  constructor
  · intro h; exact_mod_cast h
  · intro h; exact_mod_cast h

theorem Frac.blt_iff {x y : Frac} (hx : x.WF) (hy : y.WF) :
    x.blt y = true ↔ x.toRat < y.toRat := by
  unfold Frac.blt Frac.toRat
  rw [div_lt_div_iff₀ (Frac.den_posQ hx) (Frac.den_posQ hy)]
  rw [decide_eq_true_eq]
  constructor
  · intro h; exact_mod_cast h
  · intro h; exact_mod_cast h

theorem Frac.beq_iff {x y : Frac} (hx : x.WF) (hy : y.WF) :
    x.beq y = true ↔ x.toRat = y.toRat := by
  unfold Frac.beq Frac.toRat
  rw [div_eq_div_iff (Frac.den_neQ hx) (Frac.den_neQ hy)]
  rw [decide_eq_true_eq]
  constructor
  · intro h; exact_mod_cast h
  · intro h; exact_mod_cast h

theorem fmax_wf {x y : Frac} (hx : x.WF) (hy : y.WF) : (fmax x y).WF := by
  unfold fmax; split <;> assumption

theorem fmin_wf {x y : Frac} (hx : x.WF) (hy : y.WF) : (fmin x y).WF := by
  unfold fmin; split <;> assumption

theorem toRat_fmax {x y : Frac} (hx : x.WF) (hy : y.WF) :
    (fmax x y).toRat = max x.toRat y.toRat := by
  unfold fmax
  by_cases h : x.blt y = true
  · rw [if_pos h]
    rw [Frac.blt_iff hx hy] at h
    exact (max_eq_right h.le).symm
  · rw [if_neg h]
    have h2 : ¬ x.toRat < y.toRat := fun hc => h ((Frac.blt_iff hx hy).mpr hc)
    exact (max_eq_left (le_of_not_lt h2)).symm

theorem toRat_fmin {x y : Frac} (hx : x.WF) (hy : y.WF) :
    (fmin x y).toRat = min x.toRat y.toRat := by
  unfold fmin
  by_cases h : y.blt x = true
  · rw [if_pos h]
    rw [Frac.blt_iff hy hx] at h
    exact (min_eq_right h.le).symm
  · rw [if_neg h]
    have h2 : ¬ y.toRat < x.toRat := fun hc => h ((Frac.blt_iff hy hx).mpr hc)
    exact (min_eq_left (le_of_not_lt h2)).symm

theorem fsum_foldl_wf {l : List Frac} {a : Frac} (ha : a.WF)
    (hl : ∀ x ∈ l, x.WF) : (l.foldl Frac.add a).WF := by
  induction l generalizing a with
  | nil => exact ha
  | cons x xs ih =>
    exact ih (Frac.wf_add ha (hl x (by simp))) (fun y hy => hl y (by simp [hy]))

theorem fsum_wf {l : List Frac} (hl : ∀ x ∈ l, x.WF) : (fsum l).WF :=
  fsum_foldl_wf (by simp [Frac.WF]) hl

theorem toRat_fsum_foldl {l : List Frac} {a : Frac} (ha : a.WF)
    (hl : ∀ x ∈ l, x.WF) :
    (l.foldl Frac.add a).toRat = a.toRat + (l.map Frac.toRat).sum := by
  induction l generalizing a with
  | nil => simp
  | cons x xs ih =>
    have hx : x.WF := hl x (by simp)
    have := ih (Frac.wf_add ha hx) (fun y hy => hl y (by simp [hy]))
    simp only [List.foldl_cons, List.map_cons, List.sum_cons] at this ⊢
    rw [this, Frac.toRat_add ha hx]
    ring

theorem toRat_fsum {l : List Frac} (hl : ∀ x ∈ l, x.WF) :
    (fsum l).toRat = (l.map Frac.toRat).sum := by
  have := toRat_fsum_foldl (a := ⟨0, 1⟩) (by simp [Frac.WF]) hl
  simpa [fsum, Frac.toRat] using this

theorem favg_wf {l : List Frac} (hne : l ≠ []) (hl : ∀ x ∈ l, x.WF) :
    (favg l).WF := by
  unfold favg Frac.WF
  exact Nat.mul_ne_zero (fsum_wf hl) (fun h => hne (List.length_eq_zero.mp h))

theorem Frac.toRat_scaleDen (x : Frac) (n : Nat) :
    (⟨x.num, x.den * n⟩ : Frac).toRat = x.toRat / (n : ℚ) := by
  unfold Frac.toRat
  push_cast
  rw [div_div]

theorem toRat_favg {l : List Frac} (hl : ∀ x ∈ l, x.WF) :
    (favg l).toRat = (l.map Frac.toRat).sum / (l.length : ℚ) := by
  unfold favg
  rw [Frac.toRat_scaleDen, toRat_fsum hl]

theorem toRat_favg_le_one {l : List Frac} (hne : l ≠ []) (hl : ∀ x ∈ l, x.WF)
    (hb : ∀ x ∈ l, x.toRat ≤ 1) : (favg l).toRat ≤ 1 := by
  rw [toRat_favg hl]
  have hlen : (0 : ℚ) < (l.length : ℚ) := by
    exact_mod_cast List.length_pos.mpr hne
  rw [div_le_one hlen]
  have h := List.sum_le_card_nsmul (l.map Frac.toRat) 1 (by
    intro x hx
    obtain ⟨y, hy, rfl⟩ := List.mem_map.mp hx
    exact hb y hy)
  simpa [nsmul_eq_mul] using h

theorem toRat_favg_nonneg {l : List Frac} (hl : ∀ x ∈ l, x.WF)
    (hb : ∀ x ∈ l, 0 ≤ x.toRat) : 0 ≤ (favg l).toRat := by
  rw [toRat_favg hl]
  apply div_nonneg
  · apply List.sum_nonneg
    intro x hx
    obtain ⟨y, hy, rfl⟩ := List.mem_map.mp hx
    exact hb y hy
  · exact_mod_cast Nat.zero_le _

theorem fmaxList_foldl_wf {l : List Frac} {a : Frac} (ha : a.WF)
    (hl : ∀ x ∈ l, x.WF) : (l.foldl fmax a).WF := by
  induction l generalizing a with
  | nil => exact ha
  | cons x xs ih =>
    exact ih (fmax_wf ha (hl x (by simp))) (fun y hy => hl y (by simp [hy]))

theorem fmaxList_wf {l : List Frac} (hne : l ≠ []) (hl : ∀ x ∈ l, x.WF) :
    (fmaxList l).WF := by
  match l, hne with
  | x :: xs, _ =>
    exact fmaxList_foldl_wf (hl x (by simp)) (fun y hy => hl y (by simp [hy]))

theorem fmaxList_foldl_le {l : List Frac} {a : Frac} {B : ℚ} (ha : a.WF)
    (hl : ∀ x ∈ l, x.WF) (haB : a.toRat ≤ B) (hb : ∀ x ∈ l, x.toRat ≤ B) :
    (l.foldl fmax a).toRat ≤ B := by
  induction l generalizing a with
  | nil => exact haB
  | cons x xs ih =>
    have hx : x.WF := hl x (by simp)
    apply ih (fmax_wf ha hx)
    · intro y hy; exact hl y (by simp [hy])
    · rw [toRat_fmax ha hx]
      exact max_le haB (hb x (by simp))
    · intro y hy; exact hb y (by simp [hy])

theorem fmaxList_le {l : List Frac} {B : ℚ} (hne : l ≠ []) (hl : ∀ x ∈ l, x.WF)
    (hb : ∀ x ∈ l, x.toRat ≤ B) : (fmaxList l).toRat ≤ B := by
  match l, hne with
  | x :: xs, _ =>
    exact fmaxList_foldl_le (hl x (by simp)) (fun y hy => hl y (by simp [hy]))
      (hb x (by simp)) (fun y hy => hb y (by simp [hy]))

theorem le_fmaxList_foldl {l : List Frac} {a : Frac} (ha : a.WF)
    (hl : ∀ x ∈ l, x.WF) :
    a.toRat ≤ (l.foldl fmax a).toRat ∧
      ∀ y ∈ l, y.toRat ≤ (l.foldl fmax a).toRat := by
  induction l generalizing a with
  | nil => exact ⟨le_refl _, by simp⟩
  | cons x xs ih =>
    have hx : x.WF := hl x (by simp)
    have step := ih (fmax_wf ha hx) (fun y hy => hl y (by simp [hy]))
    have hmax : a.toRat ≤ (fmax a x).toRat ∧ x.toRat ≤ (fmax a x).toRat := by
      rw [toRat_fmax ha hx]
      exact ⟨le_max_left _ _, le_max_right _ _⟩
    refine ⟨le_trans hmax.1 step.1, ?_⟩
    intro y hy
    rcases List.mem_cons.mp hy with rfl | hy2
    · exact le_trans hmax.2 step.1
    · exact step.2 y hy2

theorem le_fmaxList {l : List Frac} {y : Frac} (hy : y ∈ l)
    (hl : ∀ x ∈ l, x.WF) : y.toRat ≤ (fmaxList l).toRat := by
  match l, hy with
  | x :: xs, hy =>
    have step := le_fmaxList_foldl (hl x (by simp))
      (fun z hz => hl z (List.mem_cons_of_mem x hz))
    rcases List.mem_cons.mp hy with rfl | hy2
    · exact step.1
    · exact step.2 y hy2

/-! ## Sequence ratio.  Modelled from the spec: difflib.SequenceMatcher is
standard-library code outside this repository; section 4.4 of the spec pins
it down as the Ratcliff-Obershelp ratio 2M/(len(a)+len(b)), M accumulating
greedy leftmost longest common substrings recursively, and the standard
library guards a zero total length by returning ratio 1. -/

/-- Length of the common prefix of two strings. -/
def commonLen : Str → Str → Nat
  | a :: as, b :: bs => if a = b then commonLen as bs + 1 else 0
  | _, _ => 0

/-- All candidate match positions (i, j, common length at i, j). -/
def flmCands (a b : Str) : List (Nat × Nat × Nat) :=
  (List.range (a.length + 1)).flatMap fun i =>
    (List.range (b.length + 1)).map fun j => (i, j, commonLen (a.drop i) (b.drop j))

/-- Pick the longest match, earliest in a then earliest in b on ties (the
difflib find_longest_match tie-break). -/
def flmPick (cands : List (Nat × Nat × Nat)) : Nat × Nat × Nat :=
  cands.foldl (fun best c => if best.2.2 < c.2.2 then c else best) (0, 0, 0)

def flm (a b : Str) : Nat × Nat × Nat := flmPick (flmCands a b)

/-- Total size of the recursively accumulated matching blocks.  The fuel
argument only drives structural recursion; the top-level call supplies
more fuel than the recursion can consume. -/
def rMatches : Nat → Str → Str → Nat
  | 0, _, _ => 0
  | fuel + 1, a, b =>
    let c := flm a b
    if c.2.2 = 0 then 0
    else
      c.2.2 + rMatches fuel (a.take c.1) (b.take c.2.1) +
        rMatches fuel (a.drop (c.1 + c.2.2)) (b.drop (c.2.1 + c.2.2))

def matchesTotal (a b : Str) : Nat := rMatches (a.length + b.length + 1) a b

/-- The ratio 2M/(len(a)+len(b)), with the standard-library guard that a
zero total length yields 1. -/
def seq_ratio (a b : Str) : Frac :=
  if a.length + b.length = 0 then ⟨1, 1⟩
  else ⟨2 * (matchesTotal a b : Int), a.length + b.length⟩

/-! ### Bounds for the sequence ratio -/

theorem commonLen_le_left : ∀ a b : Str, commonLen a b ≤ a.length := by
  intro a
  induction a with
  | nil => intro b; cases b <;> simp [commonLen]
  | cons x xs ih =>
    intro b
    cases b with
    | nil => simp [commonLen]
    | cons y ys =>
      simp only [commonLen, List.length_cons]
      split
      · exact Nat.succ_le_succ (ih ys)
      · omega

theorem commonLen_le_right : ∀ a b : Str, commonLen a b ≤ b.length := by
  intro a
  induction a with
  | nil => intro b; cases b <;> simp [commonLen]
  | cons x xs ih =>
    intro b
    cases b with
    | nil => simp [commonLen]
    | cons y ys =>
      simp only [commonLen, List.length_cons]
      split
      · exact Nat.succ_le_succ (ih ys)
      · omega

/-- Soundness bound for every candidate of flmCands. -/
theorem flmCands_bound {a b : Str} {c : Nat × Nat × Nat} (hc : c ∈ flmCands a b) :
    c.1 + c.2.2 ≤ a.length ∧ c.2.1 + c.2.2 ≤ b.length := by
  unfold flmCands at hc
  rw [List.mem_flatMap] at hc
  obtain ⟨i, hi, hc2⟩ := hc
  rw [List.mem_map] at hc2
  obtain ⟨j, hj, rfl⟩ := hc2
  rw [List.mem_range] at hi hj
  dsimp only
  constructor
  · have h1 := commonLen_le_left (a.drop i) (b.drop j)
    simp only [List.length_drop] at h1
    omega
  · have h2 := commonLen_le_right (a.drop i) (b.drop j)
    simp only [List.length_drop] at h2
    omega

theorem flmPick_bound {a b : Str} {l : List (Nat × Nat × Nat)} {acc : Nat × Nat × Nat}
    (hacc : acc.1 + acc.2.2 ≤ a.length ∧ acc.2.1 + acc.2.2 ≤ b.length)
    (hl : ∀ c ∈ l, c.1 + c.2.2 ≤ a.length ∧ c.2.1 + c.2.2 ≤ b.length) :
    (l.foldl (fun best c => if best.2.2 < c.2.2 then c else best) acc).1 +
        (l.foldl (fun best c => if best.2.2 < c.2.2 then c else best) acc).2.2 ≤ a.length ∧
      (l.foldl (fun best c => if best.2.2 < c.2.2 then c else best) acc).2.1 +
        (l.foldl (fun best c => if best.2.2 < c.2.2 then c else best) acc).2.2 ≤ b.length := by
  induction l generalizing acc with
  | nil => exact hacc
  | cons x xs ih =>
    simp only [List.foldl_cons]
    apply ih
    · by_cases h : acc.2.2 < x.2.2
      · simpa [h] using hl x (by simp)
      · simpa [h] using hacc
    · intro c hc; exact hl c (by simp [hc])

theorem flm_bound (a b : Str) :
    (flm a b).1 + (flm a b).2.2 ≤ a.length ∧
      (flm a b).2.1 + (flm a b).2.2 ≤ b.length := by
  unfold flm flmPick
  exact flmPick_bound (by simp) (fun c hc => flmCands_bound hc)

theorem rMatches_le : ∀ (fuel : Nat) (a b : Str),
    rMatches fuel a b ≤ min a.length b.length := by
  intro fuel
  induction fuel with
  | zero => intro a b; simp [rMatches]
  | succ n ih =>
    intro a b
    rw [rMatches]
    split
    · omega
    · have hb := flm_bound a b
      have h1 := ih (a.take (flm a b).1) (b.take (flm a b).2.1)
      have h2 := ih (a.drop ((flm a b).1 + (flm a b).2.2))
        (b.drop ((flm a b).2.1 + (flm a b).2.2))
      simp only [List.length_take, List.length_drop] at h1 h2
      omega

theorem matchesTotal_le (a b : Str) : matchesTotal a b ≤ min a.length b.length :=
  rMatches_le _ a b

theorem seq_ratio_wf (a b : Str) : (seq_ratio a b).WF := by
  unfold seq_ratio Frac.WF
  split
  · simp
  · rename_i h; simpa using h

theorem seq_ratio_nonneg (a b : Str) : 0 ≤ (seq_ratio a b).toRat := by
  unfold seq_ratio Frac.toRat
  split
  · norm_num
  · apply div_nonneg
    · positivity
    · positivity

theorem seq_ratio_le_one (a b : Str) : (seq_ratio a b).toRat ≤ 1 := by
  unfold seq_ratio Frac.toRat
  split
  · norm_num
  · rename_i ht
    rw [div_le_one (by positivity : (0:ℚ) < ((a.length + b.length : Nat) : ℚ))]
    have h := matchesTotal_le a b
    have : 2 * (matchesTotal a b) ≤ a.length + b.length := by omega
    dsimp only
    exact_mod_cast this

theorem rMatches_nil_left (fuel : Nat) (b : Str) : rMatches fuel [] b = 0 := by
  cases fuel with
  | zero => rfl
  | succ n =>
    rw [rMatches]
    have := (flm_bound [] b).1
    simp only [List.length_nil] at this
    have hz : (flm [] b).2.2 = 0 := by omega
    simp [hz]

theorem seq_ratio_nil_left {b : Str} (hb : b ≠ []) : (seq_ratio [] b).toRat = 0 := by
  unfold seq_ratio
  have hlen : b.length ≠ 0 := fun h => hb (List.length_eq_zero.mp h)
  rw [if_neg (by simpa using hlen)]
  unfold Frac.toRat matchesTotal
  rw [rMatches_nil_left]
  norm_num

/-! ## WordMatcher tables -/

/-- Generic terms down-weighted during matching (WordMatcher.__init__). -/
def genericTerms : List Str :=
  [ str "bar", str "store", str "shop", str "coffee", str "juice",
    str "restaurant", str "cafe", str "market" ]

/-- Stopword set used by the variation generator. -/
def stopTerms : List Str :=
  [ str "the", str "and", str "or", str "in", str "at", str "of" ]

/-- Speech-to-text confusion table of _generate_variations (Python dict
insertion order). -/
def sttTable : List (Str × Str) :=
  [ (str "v", str "b"), (str "m", str "n"), (str "p", str "b"),
    (str "t", str "d"), (str "g", str "k"), (str "ch", str "j"),
    (str "sh", str "s"), (str "z", str "s"), (str "f", str "v"),
    (str "b", str "v"), (str "d", str "t"), (str "j", str "g") ]

/-! ## Variation generator: port of WordMatcher._generate_variations -/

/-- Ordered set insertion (Python set membership semantics; the iteration
order of a Python set is implementation defined and the matcher only ever
takes maxima over, or tests membership of, a variation list, so insertion
order is a sound deterministic choice). -/
def oinsert (s : List Str) (x : Str) : List Str :=
  if s.contains x then s else s ++ [x]

/-- The contiguous token subsequences registered for a compound word:
for i in range(n), for j in range(i+1, n+1), keep the joined slice when
its text length exceeds 2 and it is not a stopword. -/
def subsetAdds (parts : List Str) : List Str :=
  (List.range parts.length).flatMap fun i =>
    ((List.range (parts.length + 1)).drop (i + 1)).filterMap fun j =>
      let sub := joinSp ((parts.drop i).take (j - i))
      if sub.length > 2 ∧ ¬ stopTerms.contains (lowerStr sub) then some sub else none

/-- The speech-to-text substitution variations: for each token and each
confusion rule whose source occurs in the token, the token with all
occurrences replaced, and for compound words also the whole phrase with
that token replaced (at the first position holding an equal token). -/
def sttAdds (parts : List Str) : List Str :=
  parts.flatMap fun part =>
    sttTable.flatMap fun pr =>
      if containsSub (lowerStr part) pr.1 then
        let np := replace_all pr.1 pr.2 (lowerStr part)
        np :: (if parts.length > 1 then
          [joinSp (parts.set (parts.findIdx (fun x => x = part)) np)] else [])
      else []

/-- The ordered sequence of add calls performed on the variation set of one
dictionary word. -/
def variationAdds (w : Str) : List Str :=
  let nw := normalize_text w
  let parts := pySplit nw
  [lowerStr w, nw]
    ++ (if parts.length > 1 then
          [parts.flatten, joinWith '-' parts, joinWith '_' parts]
            ++ subsetAdds parts
            ++ parts.filter
                (fun p => p.length > 2 ∧ ¬ stopTerms.contains (lowerStr p))
        else [])
    ++ [get_phonetic_key nw]
    ++ sttAdds parts
where
  joinWith (sep : Char) : List Str → Str
    | [] => []
    | [x] => x
    | x :: rest => x ++ sep :: joinWith sep rest

/-- The variation set of one dictionary word, as an insertion-ordered
duplicate-free list. -/
def varsOf (w : Str) : List Str := (variationAdds w).foldl oinsert []

/-- First-occurrence deduplication: a Python dict keyed by the dictionary
words keeps the first insertion position of a repeated key. -/
def dedupKeep (seen : List Str) : List Str → List Str
  | [] => []
  | x :: xs => if seen.contains x then dedupKeep seen xs
               else x :: dedupKeep (x :: seen) xs

/-- Port of WordMatcher._generate_variations: the index mapping each
dictionary word to its variation list. -/
def generate_variations (dictionary : List Str) : List (Str × List Str) :=
  (dedupKeep [] dictionary).map fun w => (w, varsOf w)

/-! ## Similarity scoring -/

/-- Port of WordMatcher._calculate_word_similarity. -/
def calculate_word_similarity (w1 w2 : Str) : Frac :=
  let stringSim := seq_ratio w1 w2
  let phoneticSim := seq_ratio (get_phonetic_key w1) (get_phonetic_key w2)
  let substrSim : Frac :=
    if w1.length > 3 ∧ w2.length > 3 ∧ (containsSub w2 w1 || containsSub w1 w2)
    then ⟨9, 10⟩ else ⟨0, 1⟩
  fmax (fmax stringSim phoneticSim) substrSim

/-- The generic-term weight of one input token. -/
def weight_of (iw : Str) : Frac :=
  if genericTerms.contains iw then ⟨1, 2⟩ else ⟨1, 1⟩

/-- Best per-token similarity of one input token over the dictionary
tokens (the Python max over dict_words). -/
def best_word_match (iw : Str) (dictWords : List Str) : Frac :=
  fmaxList (dictWords.map fun dw => calculate_word_similarity iw dw)

/-- The weighted per-token best scores of all input tokens. -/
def word_matches_of (inputWords dictWords : List Str) : List Frac :=
  inputWords.map fun iw => Frac.mul (best_word_match iw dictWords) (weight_of iw)

/-- The unweighted per-token best scores of the significant tokens. -/
def sig_matches_of (sigIn sigDict : List Str) : List Frac :=
  sigIn.map fun si => best_word_match si sigDict

/-- The in-order condition of the extra 0.1 boost for significant words:
both sides have at least two significant tokens and one joined phrase is
a substring of the other. -/
def order_boost_cond (sigIn sigDict : List Str) : Bool :=
  decide (sigIn.length > 1) && decide (sigDict.length > 1) &&
    (containsSub (joinSp sigDict) (joinSp sigIn) ||
      containsSub (joinSp sigIn) (joinSp sigDict))

/-- The word-by-word similarity block of _calculate_similarity (lines 201
to 241): average of the weighted per-token bests, superseded by the
significant-token average when that (strictly) exceeds 0.7, with the
in-order 0.1 boost capped at 1. -/
def word_sim_of (inputWords dictWords : List Str) : Frac :=
  if inputWords = [] then ⟨0, 1⟩
  else
    let ws0 := favg (word_matches_of inputWords dictWords)
    let sigIn := inputWords.filter (fun t => ¬ genericTerms.contains t)
    let sigDict := dictWords.filter (fun t => ¬ genericTerms.contains t)
    if sigIn ≠ [] ∧ sigDict ≠ [] then
      let sigSim := favg (sig_matches_of sigIn sigDict)
      if Frac.blt ⟨7, 10⟩ sigSim then
        let ws1 := fmax ws0 sigSim
        if order_boost_cond sigIn sigDict
        then fmin ⟨1, 1⟩ (Frac.add ws1 ⟨1, 10⟩)
        else ws1
      else ws0
    else ws0

/-- Port of WordMatcher._calculate_similarity.  A none result models the
Python ValueError raised by max() over an empty sequence, which happens
exactly when the input has tokens but the dictionary word has none. -/
def calculate_similarity (inputText dictWord variation : Str) : Option (Frac × String) :=
  let input := lowerStr inputText
  let dictw := lowerStr dictWord
  let varw := lowerStr variation
  if input = varw then some (⟨1, 1⟩, "Exact")
  else
    let inputWords := pySplit input
    let dictWords := pySplit dictw
    if inputWords ≠ [] ∧ dictWords = [] then none
    else
      let wordSim := word_sim_of inputWords dictWords
      let allGen := inputWords.all (fun t => genericTerms.contains t)
      let stringSim :=
        if allGen then Frac.mul (seq_ratio input varw) ⟨1, 2⟩
        else seq_ratio input varw
      let phoneticSim :=
        if allGen
        then Frac.mul (seq_ratio (get_phonetic_key input) (get_phonetic_key varw)) ⟨1, 2⟩
        else seq_ratio (get_phonetic_key input) (get_phonetic_key varw)
      let wordSim := if allGen then Frac.mul wordSim ⟨1, 2⟩ else wordSim
      let maxSim := fmax (fmax stringSim phoneticSim) wordSim
      some (maxSim, if Frac.beq maxSim stringSim then "Partial" else "Phonetic")

/-- Port of WordMatcher._calculate_confidence.  The match type None (which
Python would pass through) falls into the final else branch. -/
def calculate_confidence (similarity : Frac) (matchType : Option String) : String :=
  if matchType = some "Exact" then "High"
  else if matchType = some "Partial" then
    if Frac.ble ⟨4, 5⟩ similarity then "High"
    else if Frac.ble ⟨3, 5⟩ similarity then "Medium"
    else "Low"
  else
    if Frac.ble ⟨7, 10⟩ similarity then "High"
    else if Frac.ble ⟨1, 2⟩ similarity then "Medium"
    else "Low"

/-- The published confidence table of the spec (section 4.6), keyed by
match type then score. -/
def conf_table (matchType : String) (score : Frac) : String :=
  if matchType = "Exact" then "High"
  else if matchType = "Partial" then
    if Frac.ble ⟨4, 5⟩ score then "High"
    else if Frac.ble ⟨3, 5⟩ score then "Medium"
    else "Low"
  else if matchType = "Phonetic" then
    if Frac.ble ⟨7, 10⟩ score then "High"
    else if Frac.ble ⟨1, 2⟩ score then "Medium"
    else "Low"
  else "Low"

/-! ## Match selection: port of WordMatcher.match_text -/

/-- A match result as returned by match_text (the Matched Word, Match Type
and Confidence fields).  A missing result dictionary (Python None) is
represented by Option.none at the call site. -/
structure MatchRes where
  matched_word : Str
  match_type : Option String
  confidence : String
deriving DecidableEq

/-- Pass 1 of match_text: the exact-match scan with the first-token rule
for single-token queries against compound entries.  A failed first-token
test keeps scanning. -/
def pass1 (input : Str) (inputWords : List Str) :
    List (Str × List Str) → Option MatchRes
  | [] => none
  | (w, vars) :: rest =>
    if vars.contains input then
      let dictWords := pySplit (normalize_text w)
      if inputWords.length = 1 ∧ dictWords.length > 1 then
        if dictWords.headD [] = input then some ⟨w, some "Exact", "High"⟩
        else pass1 input inputWords rest
      else some ⟨w, some "Exact", "High"⟩
    else pass1 input inputWords rest

/-- The direct significant-word path at the start of the pass 2 body
(lines 326 to 346 of word_matcher.py): when both sides have significant
tokens and their average best similarity exceeds 0.7, it yields that
average (with the in-order boost) and the match type Partial; otherwise
it yields zero and no match type. -/
def sig_step (inputWords dictWords : List Str) : Frac × Option String :=
  let sigDict := dictWords.filter (fun t => ¬ genericTerms.contains t)
  let sigIn := inputWords.filter (fun t => ¬ genericTerms.contains t)
  if sigDict ≠ [] ∧ sigIn ≠ [] then
    let sigSim := favg (sig_matches_of sigIn sigDict)
    if Frac.blt ⟨7, 10⟩ sigSim then
      (if order_boost_cond sigIn sigDict
        then fmin ⟨1, 1⟩ (Frac.add sigSim ⟨1, 10⟩)
        else sigSim,
       some "Partial")
    else (⟨0, 1⟩, none)
  else (⟨0, 1⟩, none)

/-- The per-variation fall-back loop of pass 2: scan every variation with
the full scorer, keeping the running maximum (strict improvement).  A none
result propagates a scorer error. -/
def var_loop (input w : Str) :
    Frac × Option String → List Str → Option (Frac × Option String)
  | st, [] => some st
  | st, v :: rest =>
    match calculate_similarity input w v with
    | none => none
    | some (vs, vt) =>
      var_loop input w (if Frac.blt st.1 vs then (vs, some vt) else st) rest

/-- The length penalty applied to a compound entry. -/
def length_pen (inputWords dictWords : List Str) : Frac :=
  if inputWords.contains (dictWords.headD []) ||
      inputWords.any (fun t =>
        (dictWords.filter (fun u => ¬ genericTerms.contains u)).contains t)
  then ⟨1, 20⟩
  else Frac.mul ⟨1, 10⟩
    ⟨(((dictWords.length : Int) - (inputWords.length : Int)).natAbs : Int), 1⟩

/-- The tail of the pass 2 body for one entry: compound length penalty
(floored at 0), then the subset boost (capped at 1). -/
def entry_tail (inputWords dictWords : List Str) (s1 : Frac) : Frac :=
  let s2 :=
    if dictWords.length > 1
    then fmax ⟨0, 1⟩ (Frac.sub s1 (length_pen inputWords dictWords))
    else s1
  if inputWords.all (fun t => dictWords.contains t)
  then fmin ⟨1, 1⟩ (Frac.add s2 ⟨1, 10⟩)
  else s2

/-- The pass 2 body for one entry: significant-word path, per-variation
fall-back below 0.8, compound length penalty, subset boost. -/
def entry_step (input : Str) (inputWords : List Str) (w : Str)
    (vars : List Str) : Option (Frac × Option String) :=
  let dictWords := pySplit (normalize_text w)
  let s0 := sig_step inputWords dictWords
  match (if Frac.blt s0.1 ⟨4, 5⟩ then var_loop input w s0 vars else some s0) with
  | none => none
  | some (s1, t1) => some (entry_tail inputWords dictWords s1, t1)

/-- Pass 2 of match_text: fold the per-entry scores, tracking the best
(score, word, match type) with strict improvement. -/
def pass2 (input : Str) (inputWords : List Str) :
    List (Str × List Str) → Frac × Option Str × Option String →
      Option (Frac × Option Str × Option String)
  | [], st => some st
  | (w, vars) :: rest, st =>
    match entry_step input inputWords w vars with
    | none => none
    | some (es, et) =>
      pass2 input inputWords rest (if Frac.blt st.1 es then (es, some w, et) else st)

/-- Port of WordMatcher.match_text.  The outer Option models a Python
exception escaping the call; the inner Option models the None returned
when no match is found. -/
def match_text (index : List (Str × List Str)) (raw : Str) :
    Option (Option MatchRes) :=
  let input := normalize_text raw
  let inputWords := pySplit input
  match pass1 input inputWords index with
  | some r => some (some r)
  | none =>
    match pass2 input inputWords index (⟨0, 1⟩, none, none) with
    | none => none
    | some (bs, bw, bt) =>
      match bw with
      | some w =>
        if w ≠ [] ∧ Frac.ble ⟨1, 2⟩ bs
        then some (some ⟨w, bt, calculate_confidence bs bt⟩)
        else some none
      | none => some none

/-- The final best similarity of the pass 2 scan (the value compared with
the 0.5 acceptance floor), or zero if the scan raises. -/
def best_similarity (index : List (Str × List Str)) (raw : Str) : Frac :=
  match pass2 (normalize_text raw) (pySplit (normalize_text raw)) index
      (⟨0, 1⟩, none, none) with
  | some st => st.1
  | none => ⟨0, 1⟩

/-! ## Dictionary loading: port of WordMatcher._load_dictionary -/

/-- A dictionary record: the word field may be absent; any other fields are
ignored by the loader and therefore not modelled. -/
structure DictRecord where
  word : Option Str
deriving DecidableEq

/-- Port of WordMatcher._load_dictionary.  The comprehension item[...]
raises KeyError (modelled by Except.error) at the first record without a
word field. -/
def load_dictionary : List DictRecord → Except Unit (List Str)
  | [] => .ok []
  | r :: rs =>
    match r.word with
    | none => .error ()
    | some w => (load_dictionary rs).map (fun ws => w :: ws)

/-- Index construction from raw records: load the words, then build the
variation index (WordMatcher.__init__). -/
def build_index (rs : List DictRecord) : Except Unit (List (Str × List Str)) :=
  (load_dictionary rs).map generate_variations

/-! ## Facts about characters and the normalizer -/

theorem toLower_toLower (c : Char) : c.toLower.toLower = c.toLower := by
  unfold Char.toLower
  by_cases h : c.toNat ≥ 65 ∧ c.toNat ≤ 90
  · rw [if_pos h]
    have hv : (c.toNat + 32).isValidChar := by
      unfold Nat.isValidChar
      left
      omega
    have hn : (Char.ofNat (c.toNat + 32)).toNat = c.toNat + 32 := by
      unfold Char.ofNat
      rw [dif_pos hv]
      rfl
    rw [if_neg (by rw [hn]; omega)]
  · rw [if_neg h, if_neg h]

theorem space_chars {c : Char} (h : pyIsSpace c = true) :
    c = ' ' ∨ c = '\t' ∨ c = '\n' ∨ c = '\x0d' ∨ c = '\x0b' ∨ c = '\x0c' := by
  simp only [pyIsSpace, Bool.or_eq_true, decide_eq_true_eq] at h
  tauto

theorem toLower_space {c : Char} (h : pyIsSpace c = true) : c.toLower = c := by
  rcases space_chars h with rfl | rfl | rfl | rfl | rfl | rfl <;> decide

theorem space_not_word {c : Char} (h : pyIsSpace c = true) : pyIsWordChar c = false := by
  rcases space_chars h with rfl | rfl | rfl | rfl | rfl | rfl <;> decide

theorem word_not_space {c : Char} (h : pyIsWordChar c = true) : pyIsSpace c = false := by
  cases hsp : pyIsSpace c with
  | false => rfl
  | true => rw [space_not_word hsp] at h; exact absurd h (by simp)

theorem mem_dropWhile {c : α} {p : α → Bool} {l : List α}
    (h : c ∈ l.dropWhile p) : c ∈ l :=
  (List.dropWhile_suffix p).sublist.subset h

theorem mem_stripWs {c : Char} {l : Str} (h : c ∈ stripWs l) : c ∈ l := by
  unfold stripWs at h
  rw [List.mem_reverse] at h
  exact mem_dropWhile (List.mem_reverse.mp (mem_dropWhile h))

theorem mem_collapseWs {c : Char} :
    ∀ {b : Bool} {l : Str}, c ∈ collapseWs b l →
      c = ' ' ∨ (c ∈ l ∧ pyIsSpace c = false) := by
  intro b l
  induction l generalizing b with
  | nil => simp [collapseWs]
  | cons x rest ih =>
    intro h
    by_cases hx : pyIsSpace x = true
    · cases b with
      | true =>
        simp only [collapseWs, hx, if_true, if_pos] at h
        rcases ih h with h1 | ⟨h1, h2⟩
        · exact Or.inl h1
        · exact Or.inr ⟨List.mem_cons_of_mem x h1, h2⟩
      | false =>
        simp only [collapseWs, hx, if_true, if_pos] at h
        rcases List.mem_cons.mp h with rfl | h2
        · exact Or.inl rfl
        · rcases ih h2 with h3 | ⟨h3, h4⟩
          · exact Or.inl h3
          · exact Or.inr ⟨List.mem_cons_of_mem x h3, h4⟩
    · simp only [collapseWs, hx, if_false, if_neg] at h
      rcases List.mem_cons.mp h with rfl | h2
      · exact Or.inr ⟨List.mem_cons_self _ _, by simpa using hx⟩
      · rcases ih h2 with h3 | ⟨h3, h4⟩
        · exact Or.inl h3
        · exact Or.inr ⟨List.mem_cons_of_mem x h3, h4⟩

theorem head?_dropWhile_not {p : α → Bool} :
    ∀ {l : List α} {c : α}, (l.dropWhile p).head? = some c → p c = false := by
  intro l
  induction l with
  | nil => intro c h; simp [List.dropWhile] at h
  | cons x rest ih =>
    intro c h
    by_cases hx : p x = true
    · rw [List.dropWhile_cons, if_pos hx] at h
      exact ih h
    · rw [List.dropWhile_cons, if_neg hx] at h
      simp only [List.head?_cons, Option.some.injEq] at h
      subst h
      simpa using hx

/-- Every character of a normalized string is a lowercase-stable word
character or a single space. -/
theorem norm_chars {s : Str} {c : Char} (h : c ∈ normalize_text s) :
    (pyIsWordChar c = true ∧ c.toLower = c) ∨ c = ' ' := by
  unfold normalize_text at h
  have h2 := mem_collapseWs (mem_stripWs h)
  rcases h2 with h3 | ⟨h3, h4⟩
  · exact Or.inr h3
  · rw [List.mem_filter] at h3
    obtain ⟨h5, h6⟩ := h3
    unfold keepChar at h6
    rw [Bool.or_eq_true] at h6
    rcases h6 with h7 | h7
    · refine Or.inl ⟨h7, ?_⟩
      unfold lowerStr at h5
      obtain ⟨c0, _, rfl⟩ := List.mem_map.mp h5
      exact toLower_toLower c0
    · rw [h7] at h4; cases h4

/-- The no-two-adjacent-spaces relation of collapsed strings. -/
def noSpacePair (a b : Char) : Prop := ¬ (pyIsSpace a = true ∧ pyIsSpace b = true)

theorem collapse_props : ∀ l : Str,
    (∀ c, (collapseWs true l).head? = some c → pyIsSpace c = false) ∧
      List.Chain' noSpacePair (collapseWs true l) ∧
      List.Chain' noSpacePair (collapseWs false l) := by
  intro l
  induction l with
  | nil =>
    refine ⟨?_, ?_, ?_⟩
    · intro c h
      simp [collapseWs] at h
    · exact List.chain'_nil
    · exact List.chain'_nil
  | cons x rest ih =>
    obtain ⟨ih1, ih2, ih3⟩ := ih
    by_cases hx : pyIsSpace x = true
    · have e1 : collapseWs true (x :: rest) = collapseWs true rest := by
        simp [collapseWs, hx]
      have e2 : collapseWs false (x :: rest) = ' ' :: collapseWs true rest := by
        simp [collapseWs, hx]
      refine ⟨by rw [e1]; exact ih1, by rw [e1]; exact ih2, ?_⟩
      rw [e2, List.chain'_cons']
      refine ⟨?_, ih2⟩
      intro y hy
      have : pyIsSpace y = false := ih1 y hy
      exact fun hc => by rw [this] at hc; cases hc.2
    · have hxf : pyIsSpace x = false := by simpa using hx
      have e1 : collapseWs true (x :: rest) = x :: collapseWs false rest := by
        simp [collapseWs, hxf]
      have e2 : collapseWs false (x :: rest) = x :: collapseWs false rest := by
        simp [collapseWs, hxf]
      have hch : List.Chain' noSpacePair (x :: collapseWs false rest) := by
        rw [List.chain'_cons']
        refine ⟨?_, ih3⟩
        intro y _
        exact fun hc => by rw [hxf] at hc; cases hc.1
      refine ⟨?_, by rw [e1]; exact hch, by rw [e2]; exact hch⟩
      intro c hc
      rw [e1] at hc
      simp only [List.head?_cons, Option.some.injEq] at hc
      subst hc
      exact hxf

theorem chain_stripWs {l : Str} (h : List.Chain' noSpacePair l) :
    List.Chain' noSpacePair (stripWs l) := by
  unfold stripWs
  have hsymm : ∀ a b, noSpacePair a b → noSpacePair b a := by
    intro a b hab hc
    exact hab ⟨hc.2, hc.1⟩
  have h1 : List.Chain' noSpacePair (l.dropWhile pyIsSpace) :=
    h.suffix (List.dropWhile_suffix _)
  have h2 : List.Chain' noSpacePair ((l.dropWhile pyIsSpace).reverse) :=
    List.chain'_reverse.mpr (h1.imp hsymm)
  have h3 : List.Chain' noSpacePair ((l.dropWhile pyIsSpace).reverse.dropWhile pyIsSpace) :=
    h2.suffix (List.dropWhile_suffix _)
  exact List.chain'_reverse.mpr (h3.imp hsymm)

theorem norm_chain (s : Str) : List.Chain' noSpacePair (normalize_text s) :=
  chain_stripWs (collapse_props _).2.2

theorem suffix_getLast {l m : List α} (h : l <:+ m) (hne : l ≠ []) :
    l.getLast? = m.getLast? := by
  obtain ⟨pre, rfl⟩ := h
  rw [List.getLast?_append]
  have : l.getLast?.isSome = true := List.getLast?_isSome.mpr hne
  cases hl : l.getLast? with
  | none => rw [hl] at this; cases this
  | some a => simp

theorem norm_head {s : Str} {c : Char} (h : (normalize_text s).head? = some c) :
    pyIsSpace c = false := by
  unfold normalize_text stripWs at h
  set m := (collapseWs false ((lowerStr s).filter keepChar)).dropWhile pyIsSpace with hm
  rw [List.head?_reverse] at h
  have hne : m.reverse.dropWhile pyIsSpace ≠ [] := by
    intro hnil
    rw [hnil] at h
    cases h
  rw [suffix_getLast (List.dropWhile_suffix _) hne, List.getLast?_reverse] at h
  exact head?_dropWhile_not h

theorem norm_last {s : Str} {c : Char} (h : (normalize_text s).getLast? = some c) :
    pyIsSpace c = false := by
  unfold normalize_text stripWs at h
  rw [List.getLast?_reverse] at h
  exact head?_dropWhile_not h

theorem map_fix {f : α → α} : ∀ {l : List α}, (∀ c ∈ l, f c = c) → l.map f = l := by
  intro l
  induction l with
  | nil => intro _; rfl
  | cons x rest ih =>
    intro h
    rw [List.map_cons, h x (by simp), ih (fun c hc => h c (by simp [hc]))]

/-- The normalizer output is fixed by lowercasing. -/
theorem norm_lower_fix (s : Str) : lowerStr (normalize_text s) = normalize_text s := by
  apply map_fix
  intro c hc
  rcases norm_chars hc with ⟨_, h2⟩ | rfl
  · exact h2
  · decide

/-- The normalizer output is fixed by the character filter. -/
theorem norm_filter_fix (s : Str) :
    (normalize_text s).filter keepChar = normalize_text s := by
  rw [List.filter_eq_self]
  intro c hc
  rcases norm_chars hc with ⟨h1, _⟩ | rfl
  · unfold keepChar; rw [h1]; rfl
  · decide

theorem collapse_fix {y : Str}
    (hsp : ∀ c ∈ y, pyIsSpace c = true → c = ' ')
    (hch : List.Chain' noSpacePair y) :
    collapseWs false y = y ∧
      ((∀ c, y.head? = some c → pyIsSpace c = false) → collapseWs true y = y) := by
  induction y with
  | nil => exact ⟨rfl, fun _ => rfl⟩
  | cons x rest ih =>
    have hch2 : List.Chain' noSpacePair rest := (List.chain'_cons'.mp hch).2
    have hrel : ∀ y ∈ rest.head?, noSpacePair x y := (List.chain'_cons'.mp hch).1
    have ihr := ih (fun c hc h => hsp c (List.mem_cons_of_mem x hc) h) hch2
    by_cases hx : pyIsSpace x = true
    · have hx' : x = ' ' := hsp x (by simp) hx
      have hrest : collapseWs true rest = rest := by
        apply ihr.2
        intro c hc
        have : rest.head? = some c := hc
        have h2 := hrel c this
        unfold noSpacePair at h2
        by_cases hcs : pyIsSpace c = true
        · exact absurd ⟨hx, hcs⟩ h2
        · simpa using hcs
      constructor
      · show collapseWs false (x :: rest) = x :: rest
        simp only [collapseWs, hx, if_true, if_pos]
        rw [if_neg (show ¬(false = true) by simp)]
        rw [hrest, hx']
      · intro hh
        have := hh x rfl
        rw [hx] at this
        cases this
    · have hx' : pyIsSpace x = false := by simpa using hx
      constructor
      · show collapseWs false (x :: rest) = x :: rest
        simp only [collapseWs, hx', if_false, Bool.false_eq_true, if_neg]
        rw [ihr.1]
      · intro _
        show collapseWs true (x :: rest) = x :: rest
        simp only [collapseWs, hx', if_false, Bool.false_eq_true, if_neg]
        rw [ihr.1]

theorem dropWhile_eq_self_of_head {p : α → Bool} {l : List α}
    (h : ∀ c, l.head? = some c → p c = false) : l.dropWhile p = l := by
  cases l with
  | nil => rfl
  | cons x rest =>
    rw [List.dropWhile_cons, if_neg]
    rw [h x rfl]
    simp

theorem strip_fix {y : Str}
    (hh : ∀ c, y.head? = some c → pyIsSpace c = false)
    (hl : ∀ c, y.getLast? = some c → pyIsSpace c = false) :
    stripWs y = y := by
  unfold stripWs
  rw [dropWhile_eq_self_of_head hh]
  rw [dropWhile_eq_self_of_head (fun c hc => hl c (by rwa [List.head?_reverse] at hc))]
  exact List.reverse_reverse y

/-- Idempotence of the normalizer. -/
theorem norm_idem (s : Str) :
    normalize_text (normalize_text s) = normalize_text s := by
  conv_lhs => rw [normalize_text]
  rw [norm_lower_fix, norm_filter_fix]
  rw [(collapse_fix (fun c hc h => by
        rcases norm_chars hc with ⟨h1, _⟩ | rfl
        · rw [word_not_space h1] at h; cases h
        · rfl)
      (norm_chain s)).1]
  exact strip_fix (fun c hc => norm_head hc) (fun c hc => norm_last hc)

/-! ### The non-space content of the normalizer output -/

theorem filter_nonspace_collapse :
    ∀ (b : Bool) (l : Str),
      (collapseWs b l).filter (fun c => !pyIsSpace c) =
        l.filter (fun c => !pyIsSpace c) := by
  intro b l
  induction l generalizing b with
  | nil => rfl
  | cons x rest ih =>
    by_cases hx : pyIsSpace x = true
    · cases b with
      | true =>
        simp only [collapseWs, hx, if_true, if_pos]
        rw [ih true, List.filter_cons, hx]
        simp
      | false =>
        simp only [collapseWs, hx, if_true, if_pos]
        rw [if_neg (show ¬(false = true) by simp)]
        rw [List.filter_cons, List.filter_cons, hx]
        have hsp : pyIsSpace ' ' = true := by decide
        rw [hsp]
        simp only [Bool.not_true, Bool.false_eq_true, if_false]
        exact ih true
    · have hx' : pyIsSpace x = false := by simpa using hx
      simp only [collapseWs, hx', if_false, Bool.false_eq_true, if_neg]
      rw [List.filter_cons, List.filter_cons, hx']
      simp only [Bool.not_false, if_pos]
      rw [ih false]

theorem filter_nonspace_dropWhile (l : Str) :
    (l.dropWhile pyIsSpace).filter (fun c => !pyIsSpace c) =
      l.filter (fun c => !pyIsSpace c) := by
  induction l with
  | nil => rfl
  | cons x rest ih =>
    by_cases hx : pyIsSpace x = true
    · rw [List.dropWhile_cons, if_pos hx, ih, List.filter_cons, hx]
      simp
    · have hx' : pyIsSpace x = false := by simpa using hx
      rw [List.dropWhile_cons, if_neg (by rw [hx']; simp)]

theorem filter_nonspace_strip (l : Str) :
    (stripWs l).filter (fun c => !pyIsSpace c) =
      l.filter (fun c => !pyIsSpace c) := by
  unfold stripWs
  rw [List.filter_reverse, filter_nonspace_dropWhile, List.filter_reverse,
    List.reverse_reverse, filter_nonspace_dropWhile]

/-- The non-space characters of the normalizer output are exactly the word
characters of the lowercased input, in order. -/
theorem norm_content (s : Str) :
    (normalize_text s).filter (fun c => !pyIsSpace c) =
      (lowerStr s).filter pyIsWordChar := by
  unfold normalize_text
  rw [filter_nonspace_strip, filter_nonspace_collapse, List.filter_filter]
  apply List.filter_congr
  intro c _
  unfold keepChar
  by_cases hw : pyIsWordChar c = true
  · rw [hw, word_not_space hw]
    simp
  · have hw' : pyIsWordChar c = false := by simpa using hw
    rw [hw']
    by_cases hs : pyIsSpace c = true
    · rw [hs]; simp
    · have hs' : pyIsSpace c = false := by simpa using hs
      rw [hs']; simp

/-! ### All-whitespace input -/

theorem collapse_true_allspace {l : Str}
    (h : ∀ c ∈ l, pyIsSpace c = true) : collapseWs true l = [] := by
  induction l with
  | nil => rfl
  | cons x rest ih =>
    simp only [collapseWs, h x (by simp), if_true, if_pos]
    exact ih (fun c hc => h c (by simp [hc]))

/-- A query of whitespace (or nothing) normalizes to the empty string. -/
theorem norm_allspace {q : Str} (h : ∀ c ∈ q, pyIsSpace c = true) :
    normalize_text q = [] := by
  unfold normalize_text
  have hmem : ∀ c ∈ (lowerStr q).filter keepChar, pyIsSpace c = true := by
    intro c hc
    rw [List.mem_filter] at hc
    obtain ⟨c0, hc0, rfl⟩ := List.mem_map.mp hc.1
    rw [toLower_space (h c0 hc0)]
    exact h c0 hc0
  cases hfe : (lowerStr q).filter keepChar with
  | nil => rfl
  | cons x rest =>
    have hx : pyIsSpace x = true := hmem x (by rw [hfe]; simp)
    simp only [collapseWs, hx, if_true, if_pos]
    rw [collapse_true_allspace (fun c hc => hmem c (by rw [hfe]; simp [hc]))]
    decide

/-! ### Splitting facts -/

theorem splitAux_eq_nil : ∀ {l cur : Str}, splitAux l cur = [] →
    cur = [] ∧ ∀ c ∈ l, pyIsSpace c = true := by
  intro l
  induction l with
  | nil =>
    intro cur h
    unfold splitAux at h
    by_cases hc : cur = []
    · exact ⟨hc, by simp⟩
    · rw [if_neg hc] at h; cases h
  | cons x rest ih =>
    intro cur h
    unfold splitAux at h
    by_cases hx : pyIsSpace x = true
    · rw [if_pos hx] at h
      by_cases hc : cur = []
      · rw [if_pos hc] at h
        obtain ⟨h1, h2⟩ := ih h
        refine ⟨hc, ?_⟩
        intro c hcm
        rcases List.mem_cons.mp hcm with rfl | hcm2
        · exact hx
        · exact h2 c hcm2
      · rw [if_neg hc] at h; cases h
    · rw [if_neg hx] at h
      obtain ⟨h1, _⟩ := ih h
      exact absurd h1 (by simp)

theorem pySplit_ne_nil {l : Str} {c : Char} (hc : c ∈ l)
    (hns : pyIsSpace c = false) : pySplit l ≠ [] := by
  intro h
  have := (splitAux_eq_nil h).2 c hc
  rw [hns] at this
  cases this

/-- A non-empty normalization certifies a word character in the lowercased
input. -/
theorem norm_ne_nil_word {w : Str} (h : normalize_text w ≠ []) :
    ∃ c ∈ lowerStr w, pyIsWordChar c = true := by
  have hcontent := norm_content w
  cases hf : (lowerStr w).filter pyIsWordChar with
  | cons x rest =>
    have : x ∈ (lowerStr w).filter pyIsWordChar := by rw [hf]; simp
    rw [List.mem_filter] at this
    exact ⟨x, this.1, this.2⟩
  | nil =>
    exfalso
    rw [hf] at hcontent
    cases hn : normalize_text w with
    | nil => exact h hn
    | cons y ys =>
      have hy : pyIsSpace y = false := norm_head (by rw [hn]; rfl)
      have : y ∈ (normalize_text w).filter (fun c => !pyIsSpace c) := by
        rw [hn, List.filter_cons, hy]
        simp
      rw [hcontent] at this
      cases this

theorem norm_ne_nil_split {w : Str} (h : normalize_text w ≠ []) :
    pySplit (lowerStr w) ≠ [] := by
  obtain ⟨c, hc, hw⟩ := norm_ne_nil_word h
  exact pySplit_ne_nil hc (word_not_space hw)

theorem norm_ne_nil_w {w : Str} (h : normalize_text w ≠ []) : w ≠ [] := by
  intro rfl0
  subst rfl0
  exact h rfl

/-! ## Bounds and shape facts for the scorer -/

theorem fmaxList_nonneg {l : List Frac} (hne : l ≠ []) (hl : ∀ x ∈ l, x.WF)
    (hb : ∀ x ∈ l, 0 ≤ x.toRat) : 0 ≤ (fmaxList l).toRat := by
  match l, hne with
  | x :: xs, _ =>
    exact le_trans (hb x (by simp)) (le_fmaxList (by simp) hl)

theorem cws_wf (w1 w2 : Str) : (calculate_word_similarity w1 w2).WF := by
  simp only [calculate_word_similarity]
  apply fmax_wf (fmax_wf (seq_ratio_wf _ _) (seq_ratio_wf _ _))
  split <;> simp [Frac.WF]

theorem cws_bounds (w1 w2 : Str) :
    0 ≤ (calculate_word_similarity w1 w2).toRat ∧
      (calculate_word_similarity w1 w2).toRat ≤ 1 := by
  simp only [calculate_word_similarity]
  have hsw : (if w1.length > 3 ∧ w2.length > 3 ∧ (containsSub w2 w1 || containsSub w1 w2)
      then (⟨9, 10⟩ : Frac) else ⟨0, 1⟩).WF := by
    split <;> simp [Frac.WF]
  have hsb : 0 ≤ (if w1.length > 3 ∧ w2.length > 3 ∧ (containsSub w2 w1 || containsSub w1 w2)
      then (⟨9, 10⟩ : Frac) else ⟨0, 1⟩).toRat ∧
      (if w1.length > 3 ∧ w2.length > 3 ∧ (containsSub w2 w1 || containsSub w1 w2)
      then (⟨9, 10⟩ : Frac) else ⟨0, 1⟩).toRat ≤ 1 := by
    split <;> norm_num [Frac.toRat]
  have h12 := fmax_wf (seq_ratio_wf w1 w2)
    (seq_ratio_wf (get_phonetic_key w1) (get_phonetic_key w2))
  rw [toRat_fmax h12 hsw, toRat_fmax (seq_ratio_wf _ _) (seq_ratio_wf _ _)]
  constructor
  · exact le_max_of_le_left (le_max_of_le_left (seq_ratio_nonneg _ _))
  · exact max_le (max_le (seq_ratio_le_one _ _) (seq_ratio_le_one _ _)) hsb.2

theorem bwm_facts {iw : Str} {dictWords : List Str} (hne : dictWords ≠ []) :
    (best_word_match iw dictWords).WF ∧ 0 ≤ (best_word_match iw dictWords).toRat ∧
      (best_word_match iw dictWords).toRat ≤ 1 := by
  unfold best_word_match
  have hmne : dictWords.map (fun dw => calculate_word_similarity iw dw) ≠ [] := by
    simpa using hne
  have hwf : ∀ x ∈ dictWords.map (fun dw => calculate_word_similarity iw dw), x.WF := by
    intro x hx
    obtain ⟨dw, _, rfl⟩ := List.mem_map.mp hx
    exact cws_wf _ _
  refine ⟨fmaxList_wf hmne hwf, fmaxList_nonneg hmne hwf ?_, fmaxList_le hmne hwf ?_⟩
  · intro x hx
    obtain ⟨dw, _, rfl⟩ := List.mem_map.mp hx
    exact (cws_bounds _ _).1
  · intro x hx
    obtain ⟨dw, _, rfl⟩ := List.mem_map.mp hx
    exact (cws_bounds _ _).2

theorem weight_facts (iw : Str) :
    (weight_of iw).WF ∧ 0 ≤ (weight_of iw).toRat ∧ (weight_of iw).toRat ≤ 1 := by
  unfold weight_of
  split <;> norm_num [Frac.WF, Frac.toRat]

theorem mul_unit_facts {x y : Frac} (hx : x.WF) (hy : y.WF)
    (hx0 : 0 ≤ x.toRat) (hx1 : x.toRat ≤ 1) (hy0 : 0 ≤ y.toRat) (hy1 : y.toRat ≤ 1) :
    (x.mul y).WF ∧ 0 ≤ (x.mul y).toRat ∧ (x.mul y).toRat ≤ 1 := by
  refine ⟨Frac.wf_mul hx hy, ?_, ?_⟩
  · rw [Frac.toRat_mul hx hy]; exact mul_nonneg hx0 hy0
  · rw [Frac.toRat_mul hx hy]; nlinarith

theorem wm_facts {inputWords dictWords : List Str} (hd : dictWords ≠ []) :
    ∀ x ∈ word_matches_of inputWords dictWords, x.WF ∧ 0 ≤ x.toRat ∧ x.toRat ≤ 1 := by
  intro x hx
  unfold word_matches_of at hx
  obtain ⟨iw, _, rfl⟩ := List.mem_map.mp hx
  obtain ⟨h1, h2, h3⟩ := @bwm_facts iw dictWords hd
  obtain ⟨h4, h5, h6⟩ := weight_facts iw
  exact mul_unit_facts h1 h4 h2 h3 h5 h6

theorem sig_avg_facts {sigIn sigDict : List Str} (hi : sigIn ≠ []) (hd : sigDict ≠ []) :
    (favg (sig_matches_of sigIn sigDict)).WF ∧
      0 ≤ (favg (sig_matches_of sigIn sigDict)).toRat ∧
      (favg (sig_matches_of sigIn sigDict)).toRat ≤ 1 := by
  have hmne : sig_matches_of sigIn sigDict ≠ [] := by
    unfold sig_matches_of; simpa using hi
  have hwf : ∀ x ∈ sig_matches_of sigIn sigDict, x.WF := by
    intro x hx
    unfold sig_matches_of at hx
    obtain ⟨si, _, rfl⟩ := List.mem_map.mp hx
    exact (bwm_facts hd).1
  refine ⟨favg_wf hmne hwf, toRat_favg_nonneg hwf ?_, toRat_favg_le_one hmne hwf ?_⟩
  · intro x hx
    unfold sig_matches_of at hx
    obtain ⟨si, _, rfl⟩ := List.mem_map.mp hx
    exact (bwm_facts hd).2.1
  · intro x hx
    unfold sig_matches_of at hx
    obtain ⟨si, _, rfl⟩ := List.mem_map.mp hx
    exact (bwm_facts hd).2.2

theorem word_sim_facts (inputWords dictWords : List Str)
    (hguard : inputWords ≠ [] → dictWords ≠ []) :
    (word_sim_of inputWords dictWords).WF ∧
      0 ≤ (word_sim_of inputWords dictWords).toRat ∧
      (word_sim_of inputWords dictWords).toRat ≤ 1 := by
  unfold word_sim_of
  by_cases hi : inputWords = []
  · rw [if_pos hi]
    norm_num [Frac.WF, Frac.toRat]
  · rw [if_neg hi]
    dsimp only
    have hd := hguard hi
    have hwmne : word_matches_of inputWords dictWords ≠ [] := by
      unfold word_matches_of; simpa using hi
    have hwm := @wm_facts inputWords dictWords hd
    have hws0 : (favg (word_matches_of inputWords dictWords)).WF ∧
        0 ≤ (favg (word_matches_of inputWords dictWords)).toRat ∧
        (favg (word_matches_of inputWords dictWords)).toRat ≤ 1 := by
      refine ⟨favg_wf hwmne (fun x hx => (hwm x hx).1),
        toRat_favg_nonneg (fun x hx => (hwm x hx).1) (fun x hx => (hwm x hx).2.1),
        toRat_favg_le_one hwmne (fun x hx => (hwm x hx).1) (fun x hx => (hwm x hx).2.2)⟩
    set sIn := inputWords.filter (fun t => ¬ genericTerms.contains t) with hsIndef
    set sDict := dictWords.filter (fun t => ¬ genericTerms.contains t) with hsDictdef
    split
    · rename_i hsig
      obtain ⟨hsi, hsd⟩ := hsig
      have hsa := sig_avg_facts hsi hsd
      split
      · have hws1 : (fmax (favg (word_matches_of inputWords dictWords))
            (favg (sig_matches_of sIn sDict))).WF := fmax_wf hws0.1 hsa.1
        have hws1b : 0 ≤ (fmax (favg (word_matches_of inputWords dictWords))
              (favg (sig_matches_of sIn sDict))).toRat ∧
            (fmax (favg (word_matches_of inputWords dictWords))
              (favg (sig_matches_of sIn sDict))).toRat ≤ 1 := by
          rw [toRat_fmax hws0.1 hsa.1]
          exact ⟨le_max_of_le_left hws0.2.1, max_le hws0.2.2 hsa.2.2⟩
        split
        · refine ⟨fmin_wf (by simp [Frac.WF]) (Frac.wf_add hws1 (by simp [Frac.WF])), ?_, ?_⟩
          · rw [toRat_fmin (by simp [Frac.WF]) (Frac.wf_add hws1 (by simp [Frac.WF]))]
            apply le_min
            · norm_num [Frac.toRat]
            · rw [Frac.toRat_add hws1 (by simp [Frac.WF])]
              have : (0 : ℚ) ≤ Frac.toRat ⟨1, 10⟩ := by norm_num [Frac.toRat]
              linarith [hws1b.1]
          · rw [toRat_fmin (by simp [Frac.WF]) (Frac.wf_add hws1 (by simp [Frac.WF]))]
            refine le_trans (min_le_left _ _) ?_
            norm_num [Frac.toRat]
        · exact ⟨hws1, hws1b.1, hws1b.2⟩
      · exact hws0
    · exact hws0

theorem cond_half_facts {b : Bool} {x : Frac} (hx : x.WF) (h0 : 0 ≤ x.toRat)
    (h1 : x.toRat ≤ 1) :
    (if b then Frac.mul x ⟨1, 2⟩ else x).WF ∧
      0 ≤ (if b then Frac.mul x ⟨1, 2⟩ else x).toRat ∧
      (if b then Frac.mul x ⟨1, 2⟩ else x).toRat ≤ 1 := by
  cases b with
  | false => exact ⟨hx, h0, h1⟩
  | true =>
    simp only [if_true, if_pos]
    exact mul_unit_facts hx (by simp [Frac.WF]) h0 h1
      (by norm_num [Frac.toRat]) (by norm_num [Frac.toRat])

/-- The exact branch of the scorer: equal lowercased strings short-circuit
to (1.0, Exact). -/
theorem calcSim_exact {i v : Str} (w : Str) (h : lowerStr i = lowerStr v) :
    calculate_similarity i w v = some (⟨1, 1⟩, "Exact") := by
  simp only [calculate_similarity]
  rw [if_pos h]

/-- Totality of the scorer away from the empty-token error case. -/
theorem calcSim_some {i w : Str} (v : Str)
    (h : pySplit (lowerStr w) ≠ [] ∨ pySplit (lowerStr i) = []) :
    ∃ s t, calculate_similarity i w v = some (s, t) := by
  simp only [calculate_similarity]
  by_cases he : lowerStr i = lowerStr v
  · rw [if_pos he]
    exact ⟨_, _, rfl⟩
  · rw [if_neg he]
    rw [if_neg (by tauto : ¬ (pySplit (lowerStr i) ≠ [] ∧ pySplit (lowerStr w) = []))]
    exact ⟨_, _, rfl⟩

/-- The scorer only raises on a tokenless dictionary word with a tokenful
input. -/
theorem calcSim_none {i w v : Str} (h : calculate_similarity i w v = none) :
    pySplit (lowerStr i) ≠ [] ∧ pySplit (lowerStr w) = [] := by
  by_cases hc : pySplit (lowerStr i) ≠ [] ∧ pySplit (lowerStr w) = []
  · exact hc
  · obtain ⟨s, t, hs⟩ := calcSim_some (i := i) (w := w) v (by tauto)
    rw [hs] at h
    cases h

/-- Any result of the scorer is well formed, lies in the unit interval, and
carries one of the three match types. -/
theorem calcSim_facts {i w v : Str} {s : Frac} {t : String}
    (h : calculate_similarity i w v = some (s, t)) :
    s.WF ∧ 0 ≤ s.toRat ∧ s.toRat ≤ 1 ∧
      (t = "Exact" ∨ t = "Partial" ∨ t = "Phonetic") := by
  simp only [calculate_similarity] at h
  by_cases he : lowerStr i = lowerStr v
  · rw [if_pos he] at h
    simp only [Option.some.injEq, Prod.mk.injEq] at h
    rcases h with ⟨rfl, rfl⟩
    refine ⟨by simp [Frac.WF], by norm_num [Frac.toRat], by norm_num [Frac.toRat], Or.inl rfl⟩
  · rw [if_neg he] at h
    by_cases hc : pySplit (lowerStr i) ≠ [] ∧ pySplit (lowerStr w) = []
    · rw [if_pos hc] at h
      cases h
    · rw [if_neg hc] at h
      simp only [Option.some.injEq, Prod.mk.injEq] at h
      obtain ⟨h1, h2⟩ := h
      have hguard : pySplit (lowerStr i) ≠ [] → pySplit (lowerStr w) ≠ [] := by tauto
      have hword := word_sim_facts (pySplit (lowerStr i)) (pySplit (lowerStr w)) hguard
      have hstr := cond_half_facts
        (b := (pySplit (lowerStr i)).all (fun t => genericTerms.contains t))
        (seq_ratio_wf (lowerStr i) (lowerStr v)) (seq_ratio_nonneg _ _) (seq_ratio_le_one _ _)
      have hphon := cond_half_facts
        (b := (pySplit (lowerStr i)).all (fun t => genericTerms.contains t))
        (seq_ratio_wf (get_phonetic_key (lowerStr i)) (get_phonetic_key (lowerStr v)))
        (seq_ratio_nonneg _ _) (seq_ratio_le_one _ _)
      have hws := cond_half_facts
        (b := (pySplit (lowerStr i)).all (fun t => genericTerms.contains t))
        hword.1 hword.2.1 hword.2.2
      have hm1 := fmax_wf hstr.1 hphon.1
      have hswf : s.WF := by rw [← h1]; exact fmax_wf hm1 hws.1
      refine ⟨hswf, ?_, ?_, ?_⟩
      · rw [← h1, toRat_fmax hm1 hws.1, toRat_fmax hstr.1 hphon.1]
        exact le_max_of_le_left (le_max_of_le_left hstr.2.1)
      · rw [← h1, toRat_fmax hm1 hws.1, toRat_fmax hstr.1 hphon.1]
        exact max_le (max_le hstr.2.2 hphon.2.2) hws.2.2
      · rw [← h2]
        split
        all_goals try split
        all_goals first
          | exact Or.inr (Or.inl rfl)
          | exact Or.inr (Or.inr rfl)

/-- Away from the exact branch the scorer never reports the type Exact. -/
theorem calcSim_not_exact {i w v : Str} (he : lowerStr i ≠ lowerStr v)
    {s : Frac} {t : String} (h : calculate_similarity i w v = some (s, t)) :
    t ≠ "Exact" := by
  simp only [calculate_similarity] at h
  rw [if_neg he] at h
  by_cases hc : pySplit (lowerStr i) ≠ [] ∧ pySplit (lowerStr w) = []
  · rw [if_pos hc] at h
    cases h
  · rw [if_neg hc] at h
    simp only [Option.some.injEq, Prod.mk.injEq] at h
    rw [← h.2]
    split
    all_goals try split
    all_goals decide

/-! ## Facts about the match selector -/

theorem lower_lower (v : Str) : lowerStr (lowerStr v) = lowerStr v := by
  unfold lowerStr
  rw [List.map_map]
  exact List.map_congr_left (fun c _ => toLower_toLower c)

theorem pk_lower (v : Str) :
    get_phonetic_key (lowerStr v) = get_phonetic_key v := by
  unfold get_phonetic_key
  rw [lower_lower]

theorem sig_step_type (inputWords dictWords : List Str) :
    (sig_step inputWords dictWords).2 = none ∨
      (sig_step inputWords dictWords).2 = some "Partial" := by
  unfold sig_step
  dsimp only
  split
  · split
    · split <;> exact Or.inr rfl
    · exact Or.inl rfl
  · exact Or.inl rfl

theorem sig_step_none_val {inputWords dictWords : List Str}
    (h : (sig_step inputWords dictWords).2 = none) :
    (sig_step inputWords dictWords).1 = ⟨0, 1⟩ := by
  unfold sig_step at h ⊢
  dsimp only at h ⊢
  split at h
  · split at h
    · split at h <;> cases h
    · rename_i h1 h2
      rw [if_pos h1, if_neg h2]
  · rename_i h1
    rw [if_neg h1]

theorem sig_step_facts (inputWords dictWords : List Str) :
    (sig_step inputWords dictWords).1.WF ∧
      0 ≤ (sig_step inputWords dictWords).1.toRat ∧
      (sig_step inputWords dictWords).1.toRat ≤ 1 := by
  unfold sig_step
  dsimp only
  split
  · rename_i hsig
    obtain ⟨hsd, hsi⟩ := hsig
    have hsa := sig_avg_facts hsi hsd
    split
    · split
      · refine ⟨fmin_wf (by simp [Frac.WF]) (Frac.wf_add hsa.1 (by simp [Frac.WF])), ?_, ?_⟩
        · rw [toRat_fmin (by simp [Frac.WF]) (Frac.wf_add hsa.1 (by simp [Frac.WF]))]
          apply le_min
          · norm_num [Frac.toRat]
          · rw [Frac.toRat_add hsa.1 (by simp [Frac.WF])]
            have : (0 : ℚ) ≤ Frac.toRat ⟨1, 10⟩ := by norm_num [Frac.toRat]
            linarith [hsa.2.1]
        · rw [toRat_fmin (by simp [Frac.WF]) (Frac.wf_add hsa.1 (by simp [Frac.WF]))]
          refine le_trans (min_le_left _ _) ?_
          norm_num [Frac.toRat]
      · exact hsa
    · exact ⟨by simp [Frac.WF], by norm_num [Frac.toRat], by norm_num [Frac.toRat]⟩
  · exact ⟨by simp [Frac.WF], by norm_num [Frac.toRat], by norm_num [Frac.toRat]⟩

/-- The direct significant-word path labels its score Partial whenever it
fires, regardless of how the per-token similarities were obtained. -/
theorem sig_step_fires {inputWords dictWords : List Str}
    (h1 : dictWords.filter (fun t => ¬ genericTerms.contains t) ≠ [])
    (h2 : inputWords.filter (fun t => ¬ genericTerms.contains t) ≠ [])
    (h3 : Frac.blt ⟨7, 10⟩ (favg (sig_matches_of
        (inputWords.filter (fun t => ¬ genericTerms.contains t))
        (dictWords.filter (fun t => ¬ genericTerms.contains t)))) = true) :
    (sig_step inputWords dictWords).2 = some "Partial" := by
  unfold sig_step
  dsimp only
  rw [if_pos ⟨h1, h2⟩, if_pos h3]

theorem var_loop_some {input w : Str} {vars : List Str}
    (hvars : ∀ v ∈ vars, ∃ s t, calculate_similarity input w v = some (s, t)) :
    ∀ st, ∃ res, var_loop input w st vars = some res := by
  induction vars with
  | nil => intro st; exact ⟨st, rfl⟩
  | cons v rest ih =>
    intro st
    obtain ⟨s, t, hst⟩ := hvars v (by simp)
    unfold var_loop
    rw [hst]
    exact ih (fun u hu => hvars u (by simp [hu])) _

theorem var_loop_spec {input w : Str} {vars : List Str} {st res : Frac × Option String}
    (h : var_loop input w st vars = some res) :
    res = st ∨ ∃ v ∈ vars, ∃ s' t', calculate_similarity input w v = some (s', t') ∧
      res = (s', some t') := by
  induction vars generalizing st with
  | nil =>
    unfold var_loop at h
    exact Or.inl (Option.some.inj h).symm
  | cons v rest ih =>
    unfold var_loop at h
    cases hcs : calculate_similarity input w v with
    | none => rw [hcs] at h; cases h
    | some p =>
      obtain ⟨vs, vt⟩ := p
      rw [hcs] at h
      dsimp only at h
      rcases ih h with hres | ⟨u, hu, s', t', hcs', hres⟩
      · by_cases hb : Frac.blt st.1 vs = true
        · rw [if_pos hb] at hres
          exact Or.inr ⟨v, by simp, vs, vt, by rw [hcs], hres⟩
        · rw [if_neg hb] at hres
          exact Or.inl hres
      · exact Or.inr ⟨u, by simp [hu], s', t', hcs', hres⟩

theorem var_loop_wf {input w : Str} {vars : List Str} {st res : Frac × Option String}
    (hst : st.1.WF) (h : var_loop input w st vars = some res) : res.1.WF := by
  rcases var_loop_spec h with rfl | ⟨v, _, s', t', hcs, rfl⟩
  · exact hst
  · exact (calcSim_facts hcs).1

theorem var_loop_le_one {input w : Str} {vars : List Str} {st res : Frac × Option String}
    (hst : st.1.toRat ≤ 1) (h : var_loop input w st vars = some res) :
    res.1.toRat ≤ 1 := by
  rcases var_loop_spec h with rfl | ⟨v, _, s', t', hcs, rfl⟩
  · exact hst
  · exact (calcSim_facts hcs).2.2.1

theorem var_loop_mono {input w : Str} {vars : List Str} :
    ∀ {st res : Frac × Option String}, st.1.WF →
      var_loop input w st vars = some res →
      st.1.toRat ≤ res.1.toRat ∧
        ∀ v ∈ vars, ∀ s' t', calculate_similarity input w v = some (s', t') →
          s'.toRat ≤ res.1.toRat := by
  induction vars with
  | nil =>
    intro st res _ h
    unfold var_loop at h
    rw [← Option.some.inj h]
    exact ⟨le_refl _, by simp⟩
  | cons v rest ih =>
    intro st res hst h
    unfold var_loop at h
    cases hcs : calculate_similarity input w v with
    | none => rw [hcs] at h; cases h
    | some p =>
      obtain ⟨vs, vt⟩ := p
      rw [hcs] at h
      dsimp only at h
      have hpwf : vs.WF := (calcSim_facts hcs).1
      by_cases hb : Frac.blt st.1 vs = true
      · rw [if_pos hb] at h
        have step := @ih (vs, some vt) res hpwf h
        have hlt := (Frac.blt_iff hst hpwf).mp hb
        refine ⟨le_trans hlt.le step.1, ?_⟩
        intro u hu s' t' hcs'
        rcases List.mem_cons.mp hu with rfl | hu2
        · rw [hcs] at hcs'
          have hps : vs = s' := congrArg Prod.fst (Option.some.inj hcs')
          exact hps ▸ step.1
        · exact step.2 u hu2 s' t' hcs'
      · rw [if_neg hb] at h
        have step := ih hst h
        refine ⟨step.1, ?_⟩
        intro u hu s' t' hcs'
        rcases List.mem_cons.mp hu with rfl | hu2
        · rw [hcs] at hcs'
          have hps : vs = s' := congrArg Prod.fst (Option.some.inj hcs')
          have hnlt : ¬ st.1.toRat < vs.toRat := fun hc => hb ((Frac.blt_iff hst hpwf).mpr hc)
          calc s'.toRat = vs.toRat := by rw [hps]
            _ ≤ st.1.toRat := le_of_not_lt hnlt
            _ ≤ res.1.toRat := step.1
        · exact step.2 u hu2 s' t' hcs'

theorem length_pen_facts (inputWords dictWords : List Str) :
    (length_pen inputWords dictWords).WF ∧ 0 ≤ (length_pen inputWords dictWords).toRat := by
  unfold length_pen
  split
  · exact ⟨by simp [Frac.WF], by norm_num [Frac.toRat]⟩
  · refine ⟨by simp [Frac.WF, Frac.mul], ?_⟩
    unfold Frac.mul Frac.toRat
    dsimp only
    positivity

theorem entry_tail_facts {s1 : Frac} (inputWords dictWords : List Str)
    (h1 : s1.WF) (h0 : 0 ≤ s1.toRat) (hle : s1.toRat ≤ 1) :
    (entry_tail inputWords dictWords s1).WF ∧
      0 ≤ (entry_tail inputWords dictWords s1).toRat ∧
      (entry_tail inputWords dictWords s1).toRat ≤ 1 := by
  unfold entry_tail
  dsimp only
  obtain ⟨hpwf, hp0⟩ := length_pen_facts inputWords dictWords
  have hs2 : ∀ b : Prop, ∀ inst : Decidable b,
      (if b then fmax ⟨0, 1⟩ (Frac.sub s1 (length_pen inputWords dictWords)) else s1).WF ∧
        0 ≤ (if b then fmax ⟨0, 1⟩ (Frac.sub s1 (length_pen inputWords dictWords)) else s1).toRat ∧
        (if b then fmax ⟨0, 1⟩ (Frac.sub s1 (length_pen inputWords dictWords)) else s1).toRat ≤ 1 := by
    intro b inst
    split
    · refine ⟨fmax_wf (by simp [Frac.WF]) (Frac.wf_sub h1 hpwf), ?_, ?_⟩
      · rw [toRat_fmax (by simp [Frac.WF]) (Frac.wf_sub h1 hpwf)]
        exact le_max_of_le_left (by norm_num [Frac.toRat])
      · rw [toRat_fmax (by simp [Frac.WF]) (Frac.wf_sub h1 hpwf),
          Frac.toRat_sub h1 hpwf]
        apply max_le
        · norm_num [Frac.toRat]
        · linarith
    · exact ⟨h1, h0, hle⟩
  obtain ⟨t1, t2, t3⟩ := hs2 (dictWords.length > 1) inferInstance
  split
  · refine ⟨fmin_wf (by simp [Frac.WF]) (Frac.wf_add t1 (by simp [Frac.WF])), ?_, ?_⟩
    · rw [toRat_fmin (by simp [Frac.WF]) (Frac.wf_add t1 (by simp [Frac.WF]))]
      apply le_min
      · norm_num [Frac.toRat]
      · rw [Frac.toRat_add t1 (by simp [Frac.WF])]
        have : (0 : ℚ) ≤ Frac.toRat ⟨1, 10⟩ := by norm_num [Frac.toRat]
        linarith
    · rw [toRat_fmin (by simp [Frac.WF]) (Frac.wf_add t1 (by simp [Frac.WF]))]
      refine le_trans (min_le_left _ _) ?_
      norm_num [Frac.toRat]
  · exact ⟨t1, t2, t3⟩

/-- When the entry score fed into the tail is zero, the tail yields at most
the 0.1 subset boost. -/
theorem entry_tail_zero (inputWords dictWords : List Str) :
    (entry_tail inputWords dictWords ⟨0, 1⟩).WF ∧
      (entry_tail inputWords dictWords ⟨0, 1⟩).toRat ≤ 1 / 10 := by
  unfold entry_tail
  dsimp only
  obtain ⟨hpwf, hp0⟩ := length_pen_facts inputWords dictWords
  have hz : ((⟨0, 1⟩ : Frac)).WF := by simp [Frac.WF]
  have hs2 : ∀ b : Prop, ∀ inst : Decidable b,
      (if b then fmax ⟨0, 1⟩ (Frac.sub ⟨0, 1⟩ (length_pen inputWords dictWords))
        else (⟨0, 1⟩ : Frac)).WF ∧
        (if b then fmax ⟨0, 1⟩ (Frac.sub ⟨0, 1⟩ (length_pen inputWords dictWords))
          else (⟨0, 1⟩ : Frac)).toRat ≤ 0 := by
    intro b inst
    split
    · refine ⟨fmax_wf hz (Frac.wf_sub hz hpwf), ?_⟩
      rw [toRat_fmax hz (Frac.wf_sub hz hpwf), Frac.toRat_sub hz hpwf]
      apply max_le
      · norm_num [Frac.toRat]
      · have : Frac.toRat ⟨0, 1⟩ = 0 := by norm_num [Frac.toRat]
        linarith
    · exact ⟨hz, by norm_num [Frac.toRat]⟩
  obtain ⟨t1, t2⟩ := hs2 (dictWords.length > 1) inferInstance
  split
  · refine ⟨fmin_wf (by simp [Frac.WF]) (Frac.wf_add t1 (by simp [Frac.WF])), ?_⟩
    rw [toRat_fmin (by simp [Frac.WF]) (Frac.wf_add t1 (by simp [Frac.WF]))]
    refine le_trans (min_le_right _ _) ?_
    rw [Frac.toRat_add t1 (by simp [Frac.WF])]
    have : Frac.toRat ⟨1, 10⟩ = 1 / 10 := by norm_num [Frac.toRat]
    linarith
  · exact ⟨t1, by linarith [t2]⟩

theorem entry_some {input : Str} {inputWords : List Str} {w : Str} {vars : List Str}
    (hguard : pySplit (lowerStr w) ≠ [] ∨ pySplit (lowerStr input) = []) :
    ∃ es et, entry_step input inputWords w vars = some (es, et) := by
  unfold entry_step
  dsimp only
  by_cases hb : Frac.blt (sig_step inputWords (pySplit (normalize_text w))).1 ⟨4, 5⟩ = true
  · rw [if_pos hb]
    obtain ⟨res, hres⟩ :=
      var_loop_some (fun v _ => calcSim_some (i := input) (w := w) v hguard)
        (sig_step inputWords (pySplit (normalize_text w)))
    obtain ⟨s1, t1⟩ := res
    rw [hres]
    exact ⟨_, _, rfl⟩
  · rw [if_neg hb]
    exact ⟨_, _, rfl⟩

/-- Facts about a successful per-entry pass 2 result: the score is well
formed and in the unit interval, and the match type is either unset, the
Partial label of the significant-word path, or a label produced by the
full scorer on one of the registered variations. -/
theorem entry_facts {input : Str} {inputWords : List Str} {w : Str} {vars : List Str}
    {es : Frac} {et : Option String}
    (h : entry_step input inputWords w vars = some (es, et)) :
    es.WF ∧ 0 ≤ es.toRat ∧ es.toRat ≤ 1 ∧
      (et = none ∨ et = some "Partial" ∨
        ∃ v ∈ vars, ∃ s' t', calculate_similarity input w v = some (s', t') ∧
          et = some t') := by
  unfold entry_step at h
  dsimp only at h
  have hsig := sig_step_facts inputWords (pySplit (normalize_text w))
  by_cases hb : Frac.blt (sig_step inputWords (pySplit (normalize_text w))).1 ⟨4, 5⟩ = true
  · rw [if_pos hb] at h
    cases hm : var_loop input w (sig_step inputWords (pySplit (normalize_text w))) vars with
    | none => rw [hm] at h; cases h
    | some p =>
      obtain ⟨s1, t1⟩ := p
      rw [hm] at h
      dsimp only at h
      obtain ⟨he, ht⟩ : entry_tail inputWords (pySplit (normalize_text w)) s1 = es ∧ t1 = et := by
        have := Option.some.inj h
        exact ⟨congrArg Prod.fst this, congrArg Prod.snd this⟩
      have hs1 : s1.WF ∧ 0 ≤ s1.toRat ∧ s1.toRat ≤ 1 := by
        rcases var_loop_spec hm with heq | ⟨v, _, s', t', hcs, heq⟩
        · have h1 : s1 = (sig_step inputWords (pySplit (normalize_text w))).1 :=
            congrArg Prod.fst heq
          rw [h1]
          exact hsig
        · have h1 : s1 = s' := congrArg Prod.fst heq
          rw [h1]
          obtain ⟨a, b, c, _⟩ := calcSim_facts hcs
          exact ⟨a, b, c⟩
      obtain ⟨f1, f2, f3⟩ := entry_tail_facts inputWords (pySplit (normalize_text w))
        hs1.1 hs1.2.1 hs1.2.2
      rw [he] at f1 f2 f3
      refine ⟨f1, f2, f3, ?_⟩
      rcases var_loop_spec hm with heq | ⟨v, hv, s', t', hcs, heq⟩
      · have h2 : t1 = (sig_step inputWords (pySplit (normalize_text w))).2 :=
          congrArg Prod.snd heq
        rw [← ht, h2]
        rcases sig_step_type inputWords (pySplit (normalize_text w)) with h3 | h3
        · exact Or.inl h3
        · exact Or.inr (Or.inl h3)
      · have h2 : t1 = some t' := congrArg Prod.snd heq
        exact Or.inr (Or.inr ⟨v, hv, s', t', hcs, by rw [← ht, h2]⟩)
  · rw [if_neg hb] at h
    dsimp only at h
    obtain ⟨he, ht⟩ : entry_tail inputWords (pySplit (normalize_text w))
        (sig_step inputWords (pySplit (normalize_text w))).1 = es ∧
        (sig_step inputWords (pySplit (normalize_text w))).2 = et := by
      have := Option.some.inj h
      exact ⟨congrArg Prod.fst this, congrArg Prod.snd this⟩
    obtain ⟨f1, f2, f3⟩ := entry_tail_facts inputWords (pySplit (normalize_text w))
      hsig.1 hsig.2.1 hsig.2.2
    rw [he] at f1 f2 f3
    refine ⟨f1, f2, f3, ?_⟩
    rw [← ht]
    rcases sig_step_type inputWords (pySplit (normalize_text w)) with h3 | h3
    · exact Or.inl h3
    · exact Or.inr (Or.inl h3)

/-- An entry whose match type stayed unset scored at most the 0.1 subset
boost. -/
theorem entry_none_small {input : Str} {inputWords : List Str} {w : Str} {vars : List Str}
    {es : Frac}
    (h : entry_step input inputWords w vars = some (es, none)) :
    es.toRat ≤ 1 / 10 := by
  unfold entry_step at h
  dsimp only at h
  have hone : ∀ s1 : Frac,
      some (entry_tail inputWords (pySplit (normalize_text w)) s1, (none : Option String)) =
        some (es, (none : Option String)) →
      s1 = (⟨0, 1⟩ : Frac) → es.toRat ≤ 1 / 10 := by
    intro s1 hinj hz
    have he : entry_tail inputWords (pySplit (normalize_text w)) s1 = es :=
      congrArg Prod.fst (Option.some.inj hinj)
    rw [hz] at he
    rw [← he]
    exact (entry_tail_zero inputWords (pySplit (normalize_text w))).2
  by_cases hb : Frac.blt (sig_step inputWords (pySplit (normalize_text w))).1 ⟨4, 5⟩ = true
  · rw [if_pos hb] at h
    cases hm : var_loop input w (sig_step inputWords (pySplit (normalize_text w))) vars with
    | none => rw [hm] at h; cases h
    | some p =>
      obtain ⟨s1, t1⟩ := p
      rw [hm] at h
      dsimp only at h
      have ht : t1 = none := congrArg Prod.snd (Option.some.inj h)
      subst ht
      apply hone s1 h
      rcases var_loop_spec hm with heq | ⟨v, _, s', t', _, heq⟩
      · have h1 : s1 = (sig_step inputWords (pySplit (normalize_text w))).1 :=
          congrArg Prod.fst heq
        have h2 : (none : Option String) = (sig_step inputWords (pySplit (normalize_text w))).2 :=
          congrArg Prod.snd heq
        rw [h1]
        exact sig_step_none_val h2.symm
      · have h2 : (none : Option String) = some t' := congrArg Prod.snd heq
        cases h2
  · rw [if_neg hb] at h
    dsimp only at h
    have ht : (sig_step inputWords (pySplit (normalize_text w))).2 = none :=
      congrArg Prod.snd (Option.some.inj h)
    rw [ht] at h
    apply hone _ h
    exact sig_step_none_val ht

theorem pass2_some {input : Str} {inputWords : List Str} {entries : List (Str × List Str)}
    (hguard : ∀ e ∈ entries, pySplit (lowerStr e.1) ≠ [] ∨ pySplit (lowerStr input) = []) :
    ∀ st, ∃ res, pass2 input inputWords entries st = some res := by
  induction entries with
  | nil => intro st; exact ⟨st, rfl⟩
  | cons e rest ih =>
    intro st
    obtain ⟨w, vars⟩ := e
    obtain ⟨es, et, he⟩ := @entry_some input inputWords w vars
      (hguard (w, vars) (by simp))
    unfold pass2
    rw [he]
    exact ih (fun u hu => hguard u (by simp [hu])) _

theorem pass2_spec {input : Str} {inputWords : List Str} :
    ∀ {entries : List (Str × List Str)} {st res : Frac × Option Str × Option String},
      pass2 input inputWords entries st = some res →
      res = st ∨ ∃ e ∈ entries, ∃ es et,
        entry_step input inputWords e.1 e.2 = some (es, et) ∧ res = (es, some e.1, et) := by
  intro entries
  induction entries with
  | nil =>
    intro st res h
    unfold pass2 at h
    exact Or.inl (Option.some.inj h).symm
  | cons e rest ih =>
    intro st res h
    obtain ⟨w, vars⟩ := e
    unfold pass2 at h
    cases hm : entry_step input inputWords w vars with
    | none => rw [hm] at h; cases h
    | some p =>
      obtain ⟨es, et⟩ := p
      rw [hm] at h
      dsimp only at h
      rcases ih h with hres | ⟨u, hu, es', et', hm', hres⟩
      · by_cases hb : Frac.blt st.1 es = true
        · rw [if_pos hb] at hres
          exact Or.inr ⟨(w, vars), by simp, es, et, hm, hres⟩
        · rw [if_neg hb] at hres
          exact Or.inl hres
      · exact Or.inr ⟨u, by simp [hu], es', et', hm', hres⟩

theorem pass1_shape {input : Str} {inputWords : List Str} :
    ∀ {entries : List (Str × List Str)} {r : MatchRes},
      pass1 input inputWords entries = some r →
      r.match_type = some "Exact" ∧ r.confidence = "High" ∧
        ∃ e ∈ entries, r.matched_word = e.1 ∧ e.2.contains input = true := by
  intro entries
  induction entries with
  | nil => intro r h; cases h
  | cons e rest ih =>
    intro r h
    obtain ⟨w, vars⟩ := e
    unfold pass1 at h
    by_cases hc : vars.contains input = true
    · rw [if_pos hc] at h
      dsimp only at h
      by_cases h1 : inputWords.length = 1 ∧ (pySplit (normalize_text w)).length > 1
      · rw [if_pos h1] at h
        by_cases h2 : (pySplit (normalize_text w)).headD [] = input
        · rw [if_pos h2] at h
          rw [← Option.some.inj h]
          exact ⟨rfl, rfl, (w, vars), by simp, rfl, hc⟩
        · rw [if_neg h2] at h
          obtain ⟨a, b, u, hu, c⟩ := ih h
          exact ⟨a, b, u, by simp [hu], c⟩
      · rw [if_neg h1] at h
        rw [← Option.some.inj h]
        exact ⟨rfl, rfl, (w, vars), by simp, rfl, hc⟩
    · rw [if_neg hc] at h
      obtain ⟨a, b, u, hu, c⟩ := ih h
      exact ⟨a, b, u, by simp [hu], c⟩

theorem pass1_none {input : Str} {inputWords : List Str} :
    ∀ {entries : List (Str × List Str)},
      (∀ e ∈ entries, e.2.contains input = false) →
      pass1 input inputWords entries = none := by
  intro entries
  induction entries with
  | nil => intro _; rfl
  | cons e rest ih =>
    intro h
    obtain ⟨w, vars⟩ := e
    unfold pass1
    rw [if_neg (by rw [h (w, vars) (by simp)]; simp)]
    exact ih (fun u hu => h u (by simp [hu]))

/-- The Python confidence function agrees with the published table on the
three real match types. -/
theorem conf_eq {t : String} (s : Frac)
    (ht : t = "Exact" ∨ t = "Partial" ∨ t = "Phonetic") :
    calculate_confidence s (some t) = conf_table t s := by
  rcases ht with rfl | rfl | rfl <;> rfl

/-! ### Ordered-set and index facts -/

theorem oinsert_sub {s : List Str} {a : Str} (y : Str) (h : a ∈ s) : a ∈ oinsert s y := by
  unfold oinsert
  split
  · exact h
  · exact List.mem_append_left _ h

theorem mem_oinsert_self (s : List Str) (x : Str) : x ∈ oinsert s x := by
  unfold oinsert
  split
  · rename_i h
    exact List.mem_of_elem_eq_true h
  · exact List.mem_append_right _ (by simp)

theorem mem_foldl_oinsert_keep {rest : List Str} :
    ∀ {init : List Str} {a : Str}, a ∈ init → a ∈ rest.foldl oinsert init := by
  induction rest with
  | nil => intro _ _ h; exact h
  | cons y ys ih => intro init a h; exact ih (oinsert_sub y h)

theorem mem_foldl_oinsert {adds : List Str} {x : Str} (hx : x ∈ adds) :
    ∀ init, x ∈ adds.foldl oinsert init := by
  induction adds with
  | nil => cases hx
  | cons y ys ih =>
    intro init
    rw [List.foldl_cons]
    rcases List.mem_cons.mp hx with rfl | h2
    · exact mem_foldl_oinsert_keep (mem_oinsert_self init x)
    · exact ih h2 _

theorem mem_varsOf {w x : Str} (hx : x ∈ variationAdds w) : x ∈ varsOf w :=
  mem_foldl_oinsert hx []

theorem dedup_subset {x : Str} :
    ∀ {seen l : List Str}, x ∈ dedupKeep seen l → x ∈ l := by
  intro seen l
  induction l generalizing seen with
  | nil => intro h; cases h
  | cons y ys ih =>
    intro h
    unfold dedupKeep at h
    split at h
    · exact List.mem_cons_of_mem y (ih h)
    · rcases List.mem_cons.mp h with rfl | h2
      · exact List.mem_cons_self _ _
      · exact List.mem_cons_of_mem y (ih h2)

theorem mem_index {dict : List Str} {e : Str × List Str}
    (he : e ∈ generate_variations dict) : e.1 ∈ dict ∧ e.2 = varsOf e.1 := by
  unfold generate_variations at he
  obtain ⟨w, hw, rfl⟩ := List.mem_map.mp he
  exact ⟨dedup_subset hw, rfl⟩

/-! ### Dictionary loading facts -/

theorem load_ok_iff (rs : List DictRecord) :
    (∃ ws, load_dictionary rs = .ok ws) ↔ ∀ r ∈ rs, r.word ≠ none := by
  induction rs with
  | nil => exact ⟨fun _ => by simp, fun _ => ⟨[], rfl⟩⟩
  | cons r rest ih =>
    constructor
    · rintro ⟨ws, hws⟩
      unfold load_dictionary at hws
      cases hword : r.word with
      | none => rw [hword] at hws; cases hws
      | some w =>
        rw [hword] at hws
        intro u hu
        rcases List.mem_cons.mp hu with rfl | hu2
        · rw [hword]; simp
        · cases hrest : load_dictionary rest with
          | error e => rw [hrest] at hws; cases hws
          | ok l => exact (ih.mp ⟨l, hrest⟩) u hu2
    · intro h
      obtain ⟨l, hl⟩ := ih.mpr (fun u hu => h u (by simp [hu]))
      cases hword : r.word with
      | none => exact absurd hword (h r (by simp))
      | some w =>
        refine ⟨w :: l, ?_⟩
        unfold load_dictionary
        rw [hword, hl]
        rfl

theorem load_ok_val :
    ∀ {rs : List DictRecord} {ws : List Str}, load_dictionary rs = .ok ws →
      ws = rs.filterMap (fun r => r.word) := by
  intro rs
  induction rs with
  | nil =>
    intro ws h
    unfold load_dictionary at h
    rw [← Except.ok.inj h]
    rfl
  | cons r rest ih =>
    intro ws h
    unfold load_dictionary at h
    cases hword : r.word with
    | none => rw [hword] at h; cases h
    | some w =>
      rw [hword] at h
      cases hrest : load_dictionary rest with
      | error e => rw [hrest] at h; cases h
      | ok l =>
        rw [hrest] at h
        have : w :: l = ws := Except.ok.inj h
        rw [← this, List.filterMap_cons, hword, ih hrest]

/-! ### Scoring an empty query -/

theorem pk_nil : get_phonetic_key [] = [] := by decide

theorem calcSim_empty_input {w v : Str} (hv : v ≠ [])
    (hpk : get_phonetic_key v ≠ []) :
    ∃ s t, calculate_similarity [] w v = some (s, t) ∧ s.WF ∧ s.toRat = 0 := by
  have hvne : lowerStr v ≠ [] := by
    intro h
    exact hv (List.map_eq_nil_iff.mp h)
  have hpkv : get_phonetic_key (lowerStr v) ≠ [] := by
    rw [pk_lower]
    exact hpk
  simp only [calculate_similarity]
  rw [if_neg (show ¬((lowerStr ([] : Str)) = lowerStr v) from fun h => hvne (by
    rw [← h]; rfl))]
  rw [if_neg (show ¬(pySplit (lowerStr ([] : Str)) ≠ [] ∧ pySplit (lowerStr w) = []) from by
    intro hc
    exact hc.1 rfl)]
  rw [show lowerStr ([] : Str) = [] from rfl]
  rw [show pySplit ([] : Str) = [] from rfl, pk_nil]
  simp only [List.all_nil, if_true]
  have hword : word_sim_of [] (pySplit (lowerStr w)) = ⟨0, 1⟩ := by
    unfold word_sim_of
    rw [if_pos rfl]
  rw [hword]
  have whalf : ((⟨1, 2⟩ : Frac)).WF := by simp [Frac.WF]
  have wzero : ((⟨0, 1⟩ : Frac)).WF := by simp [Frac.WF]
  have w1 := Frac.wf_mul (seq_ratio_wf [] (lowerStr v)) whalf
  have w2 := Frac.wf_mul (seq_ratio_wf [] (get_phonetic_key (lowerStr v))) whalf
  have w3 := Frac.wf_mul wzero whalf
  refine ⟨_, _, rfl, fmax_wf (fmax_wf w1 w2) w3, ?_⟩
  rw [toRat_fmax (fmax_wf w1 w2) w3, toRat_fmax w1 w2]
  rw [Frac.toRat_mul (seq_ratio_wf _ _) whalf, Frac.toRat_mul (seq_ratio_wf _ _) whalf,
    Frac.toRat_mul wzero whalf]
  rw [seq_ratio_nil_left hvne, seq_ratio_nil_left hpkv]
  norm_num [Frac.toRat]

theorem var_loop_const_zero {w : Str} {vars : List Str}
    (hvars : ∀ v ∈ vars, v ≠ [] ∧ get_phonetic_key v ≠ []) :
    var_loop [] w (⟨0, 1⟩, none) vars = some (⟨0, 1⟩, none) := by
  induction vars with
  | nil => rfl
  | cons v rest ih =>
    obtain ⟨s, t, hcs, hwf, hval⟩ :=
      calcSim_empty_input (w := w) (hvars v (by simp)).1 (hvars v (by simp)).2
    unfold var_loop
    rw [hcs]
    dsimp only
    rw [if_neg (show ¬ (Frac.blt ⟨0, 1⟩ s = true) from fun hb => by
      have := (Frac.blt_iff (by simp [Frac.WF]) hwf).mp hb
      rw [hval] at this
      norm_num [Frac.toRat] at this)]
    exact ih (fun u hu => hvars u (by simp [hu]))

theorem sig_step_empty (dictWords : List Str) :
    sig_step [] dictWords = (⟨0, 1⟩, none) := by
  unfold sig_step
  dsimp only
  rw [if_neg (by simp)]

theorem entry_empty {w : Str} {vars : List Str}
    (hvars : ∀ v ∈ vars, v ≠ [] ∧ get_phonetic_key v ≠ []) :
    entry_step [] [] w vars =
      some (entry_tail [] (pySplit (normalize_text w)) ⟨0, 1⟩, none) := by
  unfold entry_step
  dsimp only
  rw [sig_step_empty]
  rw [if_pos (by decide : Frac.blt (⟨0, 1⟩ : Frac) ⟨4, 5⟩ = true)]
  rw [var_loop_const_zero hvars]

/-! ### Unfolding equations for the match selector -/

theorem match_text_pass1 {index : List (Str × List Str)} {raw : Str} {r0 : MatchRes}
    (h : pass1 (normalize_text raw) (pySplit (normalize_text raw)) index = some r0) :
    match_text index raw = some (some r0) := by
  unfold match_text
  dsimp only
  rw [h]

theorem match_text_pass2_none {index : List (Str × List Str)} {raw : Str}
    {bs : Frac} {bt : Option String}
    (h1 : pass1 (normalize_text raw) (pySplit (normalize_text raw)) index = none)
    (h2 : pass2 (normalize_text raw) (pySplit (normalize_text raw)) index
      (⟨0, 1⟩, none, none) = some (bs, none, bt)) :
    match_text index raw = some none := by
  unfold match_text
  dsimp only
  rw [h1]
  dsimp only
  simp only [h2]

theorem match_text_pass2_some {index : List (Str × List Str)} {raw : Str}
    {bs : Frac} {w : Str} {bt : Option String}
    (h1 : pass1 (normalize_text raw) (pySplit (normalize_text raw)) index = none)
    (h2 : pass2 (normalize_text raw) (pySplit (normalize_text raw)) index
      (⟨0, 1⟩, none, none) = some (bs, some w, bt)) :
    match_text index raw =
      (if w ≠ [] ∧ Frac.ble ⟨1, 2⟩ bs = true
        then some (some ⟨w, bt, calculate_confidence bs bt⟩)
        else some none) := by
  unfold match_text
  dsimp only
  rw [h1]
  dsimp only
  simp only [h2]

theorem match_text_err {index : List (Str × List Str)} {raw : Str}
    (h1 : pass1 (normalize_text raw) (pySplit (normalize_text raw)) index = none)
    (h2 : pass2 (normalize_text raw) (pySplit (normalize_text raw)) index
      (⟨0, 1⟩, none, none) = none) :
    match_text index raw = none := by
  unfold match_text
  dsimp only
  rw [h1]
  dsimp only
  rw [h2]

theorem best_similarity_eq {index : List (Str × List Str)} {raw : Str}
    {bs : Frac} {bw : Option Str} {bt : Option String}
    (h2 : pass2 (normalize_text raw) (pySplit (normalize_text raw)) index
      (⟨0, 1⟩, none, none) = some (bs, bw, bt)) :
    best_similarity index raw = bs := by
  unfold best_similarity
  rw [h2]

theorem contains_nil_false {l : List Str} (h : ∀ v ∈ l, v ≠ []) :
    l.contains ([] : Str) = false := by
  cases hc : l.contains ([] : Str) with
  | false => rfl
  | true => exact absurd rfl (h [] (List.mem_of_elem_eq_true hc))

theorem splitAux_nil (cur : Str) :
    splitAux [] cur = if cur = [] then [] else [cur] := rfl

theorem splitAux_cons (x : Char) (xs cur : Str) :
    splitAux (x :: xs) cur =
      if pyIsSpace x then (if cur = [] then splitAux xs [] else cur :: splitAux xs [])
      else splitAux xs (cur ++ [x]) := rfl

theorem collapseWs_false_cons (x : Char) (xs : Str) :
    collapseWs false (x :: xs) =
      if pyIsSpace x then ' ' :: collapseWs true xs else x :: collapseWs false xs := rfl

theorem collapseWs_true_cons (x : Char) (xs : Str) :
    collapseWs true (x :: xs) =
      if pyIsSpace x then collapseWs true xs else x :: collapseWs false xs := rfl

theorem splitAux_allspace : ∀ w : Str, (∀ c ∈ w, pyIsSpace c = true) →
    splitAux w [] = [] := by
  intro w
  induction w with
  | nil => intro _; rfl
  | cons c rest ih =>
    intro h
    rw [splitAux_cons, if_pos (h c (by simp)), if_pos rfl]
    exact ih (fun x hx => h x (by simp [hx]))

theorem splitAux_allspace_cur : ∀ (w cur : Str), (∀ c ∈ w, pyIsSpace c = true) →
    splitAux w cur = splitAux [] cur := by
  intro w cur h
  cases w with
  | nil => rfl
  | cons c rest =>
    have hrest : splitAux rest [] = [] :=
      splitAux_allspace rest (fun x hx => h x (by simp [hx]))
    rw [splitAux_cons, if_pos (h c (by simp)), hrest, splitAux_nil]

theorem splitAux_append_allspace (w : Str) (hw : ∀ c ∈ w, pyIsSpace c = true) :
    ∀ (t cur : Str), splitAux (t ++ w) cur = splitAux t cur := by
  intro t
  induction t with
  | nil =>
    intro cur
    rw [List.nil_append]
    exact splitAux_allspace_cur w cur hw
  | cons c rest ih =>
    intro cur
    show splitAux (c :: (rest ++ w)) cur = splitAux (c :: rest) cur
    rw [splitAux_cons, splitAux_cons]
    by_cases hc : pyIsSpace c = true
    · rw [if_pos hc, if_pos hc]
      by_cases hcur : cur = []
      · rw [if_pos hcur, if_pos hcur, ih]
      · rw [if_neg hcur, if_neg hcur, ih]
    · rw [if_neg hc, if_neg hc, ih]

theorem splitAux_dropWhile : ∀ l : Str,
    splitAux (l.dropWhile pyIsSpace) [] = splitAux l [] := by
  intro l
  induction l with
  | nil => rfl
  | cons c rest ih =>
    by_cases hc : pyIsSpace c = true
    · rw [List.dropWhile_cons, if_pos hc, ih, splitAux_cons, if_pos hc, if_pos rfl]
    · rw [List.dropWhile_cons, if_neg hc]

theorem pySplit_stripWs (l : Str) : pySplit (stripWs l) = pySplit l := by
  unfold pySplit stripWs
  have h1 : splitAux (l.dropWhile pyIsSpace) [] = splitAux l [] := splitAux_dropWhile l
  have h2 : l.dropWhile pyIsSpace =
      (((l.dropWhile pyIsSpace).reverse.dropWhile pyIsSpace).reverse) ++
        (((l.dropWhile pyIsSpace).reverse.takeWhile pyIsSpace).reverse) := by
    conv_lhs => rw [← List.reverse_reverse (l.dropWhile pyIsSpace),
      ← List.takeWhile_append_dropWhile (p := pyIsSpace)
        (l := (l.dropWhile pyIsSpace).reverse)]
    rw [List.reverse_append]
  have h3 : splitAux (l.dropWhile pyIsSpace) [] =
      splitAux (((l.dropWhile pyIsSpace).reverse.dropWhile pyIsSpace).reverse) [] := by
    conv_lhs => rw [h2]
    exact splitAux_append_allspace _
      (fun c hc => List.mem_takeWhile_imp (List.mem_reverse.mp hc)) _ []
  rw [← h3, h1]

theorem splitAux_collapse : ∀ l : Str,
    (∀ cur, splitAux (collapseWs false l) cur = splitAux l cur) ∧
      splitAux (collapseWs true l) [] = splitAux l [] := by
  intro l
  induction l with
  | nil => exact ⟨fun cur => rfl, rfl⟩
  | cons c rest ih =>
    by_cases hc : pyIsSpace c = true
    · have e1 : collapseWs false (c :: rest) = ' ' :: collapseWs true rest := by
        rw [collapseWs_false_cons, if_pos hc]
      have e2 : collapseWs true (c :: rest) = collapseWs true rest := by
        rw [collapseWs_true_cons, if_pos hc]
      constructor
      · intro cur
        rw [e1, splitAux_cons, if_pos (show pyIsSpace ' ' = true from by decide)]
        rw [splitAux_cons, if_pos hc, ih.2]
      · rw [e2, ih.2, splitAux_cons, if_pos hc, if_pos rfl]
    · have e1 : collapseWs false (c :: rest) = c :: collapseWs false rest := by
        rw [collapseWs_false_cons, if_neg hc]
      have e2 : collapseWs true (c :: rest) = c :: collapseWs false rest := by
        rw [collapseWs_true_cons, if_neg hc]
      constructor
      · intro cur
        rw [e1, splitAux_cons, if_neg hc, splitAux_cons, if_neg hc]
        exact ih.1 (cur ++ [c])
      · rw [e2, splitAux_cons, if_neg hc, splitAux_cons, if_neg hc]
        exact ih.1 ([] ++ [c])

theorem pySplit_collapse (l : Str) : pySplit (collapseWs false l) = pySplit l :=
  (splitAux_collapse l).1 []

theorem norm_split (s : Str) :
    pySplit (normalize_text s) = pySplit ((lowerStr s).filter keepChar) := by
  unfold normalize_text
  rw [pySplit_stripWs, pySplit_collapse]

theorem joinSp_splitAux : ∀ (n : Nat) (t cur : Str), t.length ≤ n → cur ≠ [] →
    (∀ c ∈ t, pyIsSpace c = true → c = ' ') →
    List.Chain' noSpacePair t →
    (∀ c, t.getLast? = some c → pyIsSpace c = false) →
    joinSp (splitAux t cur) = cur ++ t := by
  intro n
  induction n with
  | zero =>
    intro t cur hlen hcur _ _ _
    have ht : t = [] := List.length_eq_zero.mp (Nat.le_zero.mp hlen)
    subst ht
    rw [splitAux_nil, if_neg hcur, List.append_nil]
    rfl
  | succ n ih =>
    intro t cur hlen hcur hsp hch hlast
    cases t with
    | nil =>
      rw [splitAux_nil, if_neg hcur, List.append_nil]
      rfl
    | cons c rest =>
      by_cases hc : pyIsSpace c = true
      · have hc' : c = ' ' := hsp c (by simp) hc
        cases rest with
        | nil =>
          exfalso
          have hl := hlast c (by simp)
          rw [hl] at hc
          cases hc
        | cons d rest2 =>
          have hd : pyIsSpace d = false := by
            have hpair := (List.chain'_cons.mp hch).1
            cases hdb : pyIsSpace d with
            | false => rfl
            | true => exact absurd ⟨hc, hdb⟩ hpair
          have hstep : splitAux (c :: d :: rest2) cur = cur :: splitAux rest2 [d] := by
            rw [splitAux_cons, if_pos hc, if_neg hcur, splitAux_cons,
              if_neg (by simp [hd]), List.nil_append]
          have hlen2 : rest2.length ≤ n := by
            simp only [List.length_cons] at hlen
            omega
          have hIH := ih rest2 [d] hlen2 (by simp)
            (fun x hx hsx => hsp x (by simp [hx]) hsx)
            ((List.chain'_cons.mp hch).2.tail)
            (fun x hx => hlast x (by
              cases rest2 with
              | nil => simp at hx
              | cons e rest3 =>
                rw [List.getLast?_cons_cons, List.getLast?_cons_cons]
                exact hx))
          have hne : splitAux rest2 [d] ≠ [] := by
            intro h0
            rw [h0] at hIH
            simp [joinSp] at hIH
          obtain ⟨w2, L2, hL⟩ : ∃ w2 L2, splitAux rest2 [d] = w2 :: L2 := by
            cases hL0 : splitAux rest2 [d] with
            | nil => exact absurd hL0 hne
            | cons w2 L2 => exact ⟨w2, L2, rfl⟩
          rw [hstep, hL]
          show cur ++ ' ' :: joinSp (w2 :: L2) = cur ++ c :: d :: rest2
          rw [← hL, hIH, hc']
          rfl
      · have hstep : splitAux (c :: rest) cur = splitAux rest (cur ++ [c]) := by
          rw [splitAux_cons, if_neg hc]
        rw [hstep]
        have hlen2 : rest.length ≤ n := by
          simp only [List.length_cons] at hlen
          omega
        have hIH := ih rest (cur ++ [c]) hlen2 (by simp)
          (fun x hx hsx => hsp x (by simp [hx]) hsx)
          hch.tail
          (fun x hx => hlast x (by
            cases rest with
            | nil => simp at hx
            | cons e rest3 =>
              rw [List.getLast?_cons_cons]
              exact hx))
        rw [hIH, List.append_assoc]
        rfl

theorem joinSp_pySplit (t : Str)
    (hsp : ∀ c ∈ t, pyIsSpace c = true → c = ' ')
    (hch : List.Chain' noSpacePair t)
    (hhead : ∀ c, t.head? = some c → pyIsSpace c = false)
    (hlast : ∀ c, t.getLast? = some c → pyIsSpace c = false) :
    joinSp (pySplit t) = t := by
  cases t with
  | nil => rfl
  | cons c rest =>
    have hc : pyIsSpace c = false := hhead c rfl
    unfold pySplit
    rw [splitAux_cons, if_neg (by simp [hc]), List.nil_append]
    exact joinSp_splitAux rest.length rest [c] (le_refl _) (by simp)
      (fun x hx hsx => hsp x (by simp [hx]) hsx)
      hch.tail
      (fun x hx => hlast x (by
        cases rest with
        | nil => simp at hx
        | cons e rest3 =>
          rw [List.getLast?_cons_cons]
          exact hx))

theorem norm_join (s : Str) :
    normalize_text s = joinSp (pySplit ((lowerStr s).filter keepChar)) := by
  have hsp : ∀ c ∈ normalize_text s, pyIsSpace c = true → c = ' ' := by
    intro c hc hspace
    rcases norm_chars hc with ⟨hword, _⟩ | hsp'
    · exact Bool.noConfusion ((word_not_space hword).symm.trans hspace)
    · exact hsp'
  rw [← norm_split s]
  exact (joinSp_pySplit _ hsp (norm_chain s)
    (fun c h => norm_head h) (fun c h => norm_last h)).symm

/-! ## The claims -/

/-- C9: the normalizer is idempotent; normalizing an already-normalized
string returns it unchanged. -/
theorem claim_C9 (s : Str) :
    normalize_text (normalize_text s) = normalize_text s :=
  norm_idem s

/-- C4 counterexample: the claim says every character that is not a letter,
digit, or whitespace is removed, but the underscore (which is none of
those) is kept by the regex word class, so normalize leaves a_b unchanged
instead of producing ab. -/
theorem claim_C4_counterexample :
    normalize_text (str "a_b") ≠ str "ab" ∧ normalize_text (str "a_b") = str "a_b" := by
  constructor
  · decide
  · decide

/-- C4 (amended): normalize lowercases its input, removes every character
that is not a letter, digit, underscore, or whitespace, collapses every
whitespace run to one space, and trims the ends: the output is exactly
the single-space join of the whitespace-run tokens of the filtered
lowercased input, so each interior run of whitespace becomes one space.
Further the non-space output characters are exactly the word characters
of the lowercased input in order, every output character is a lowered
word character or a space, no two spaces are adjacent, neither end is a
space, the function is total, and empty input maps to the empty
string. -/
theorem claim_C4 (s : Str) :
    normalize_text s = joinSp (pySplit ((lowerStr s).filter keepChar)) ∧
      (normalize_text s).filter (fun c => !pyIsSpace c) = (lowerStr s).filter pyIsWordChar ∧
      (∀ c ∈ normalize_text s, (pyIsWordChar c = true ∧ c.toLower = c) ∨ c = ' ') ∧
      List.Chain' noSpacePair (normalize_text s) ∧
      (normalize_text s).head? ≠ some ' ' ∧
      (normalize_text s).getLast? ≠ some ' ' ∧
      normalize_text [] = [] := by
  refine ⟨norm_join s, norm_content s, fun c hc => norm_chars hc, norm_chain s, ?_, ?_, rfl⟩
  · intro h
    have := norm_head h
    rw [show pyIsSpace ' ' = true from by decide] at this
    cases this
  · intro h
    have := norm_last h
    rw [show pyIsSpace ' ' = true from by decide] at this
    cases this

/-- C4 witness: the amended statement evaluated at a concrete input. -/
theorem claim_C4_witness :
    normalize_text (str " A_b! cc ") =
        joinSp (pySplit ((lowerStr (str " A_b! cc ")).filter keepChar)) ∧
      (normalize_text (str " A_b! cc ")).filter (fun c => !pyIsSpace c) =
        (lowerStr (str " A_b! cc ")).filter pyIsWordChar ∧
      (∀ c ∈ normalize_text (str " A_b! cc "),
        (pyIsWordChar c = true ∧ c.toLower = c) ∨ c = ' ') ∧
      List.Chain' noSpacePair (normalize_text (str " A_b! cc ")) ∧
      (normalize_text (str " A_b! cc ")).head? ≠ some ' ' ∧
      (normalize_text (str " A_b! cc ")).getLast? ≠ some ' ' ∧
      normalize_text [] = [] :=
  claim_C4 (str " A_b! cc ")

/-- C3 counterexample: a record without a word field aborts index
construction with a KeyError (modelled as an error result) instead of
being skipped. -/
theorem claim_C3_counterexample :
    build_index [{ word := none }] = Except.error () := by
  rfl

/-- C3 (amended): a record without a word field raises KeyError and aborts
index construction; build_index succeeds exactly when every record has a
word field, in which case the loaded words are the word fields in order. -/
theorem claim_C3 (rs : List DictRecord) :
    ((∃ idx, build_index rs = .ok idx) ↔ ∀ r ∈ rs, r.word ≠ none) ∧
      (∀ ws, load_dictionary rs = .ok ws → ws = rs.filterMap (fun r => r.word)) := by
  constructor
  · rw [← load_ok_iff]
    constructor
    · rintro ⟨idx, hidx⟩
      unfold build_index at hidx
      cases hload : load_dictionary rs with
      | error e => rw [hload] at hidx; cases hidx
      | ok ws => exact ⟨ws, rfl⟩
    · rintro ⟨ws, hws⟩
      refine ⟨generate_variations ws, ?_⟩
      unfold build_index
      rw [hws]
      rfl
  · intro ws h
    exact load_ok_val h

/-- C3 witness: the amended statement evaluated at a concrete record
list. -/
theorem claim_C3_witness :
    ((∃ idx, build_index [{ word := some (str "ab") }] = .ok idx) ↔
        ∀ r ∈ [({ word := some (str "ab") } : DictRecord)], r.word ≠ none) ∧
      (∀ ws, load_dictionary [{ word := some (str "ab") }] = .ok ws →
        ws = [({ word := some (str "ab") } : DictRecord)].filterMap (fun r => r.word)) :=
  claim_C3 [{ word := some (str "ab") }]

/-- C7: after index construction every entry registers at least the
normalized canonical word and the phonetic key of the normalized
canonical word among its variations. -/
theorem claim_C7 (dict : List Str) :
    ∀ e ∈ generate_variations dict,
      normalize_text e.1 ∈ e.2 ∧ get_phonetic_key (normalize_text e.1) ∈ e.2 := by
  intro e he
  obtain ⟨_, hvars⟩ := mem_index he
  rw [hvars]
  constructor
  · apply mem_varsOf
    unfold variationAdds
    simp
  · apply mem_varsOf
    unfold variationAdds
    simp

/-- C7 witness: the statement evaluated on a concrete one-word
dictionary. -/
theorem claim_C7_witness :
    normalize_text (str "ab") ∈ varsOf (str "ab") ∧
      get_phonetic_key (normalize_text (str "ab")) ∈ varsOf (str "ab") :=
  claim_C7 [str "ab"] (str "ab", varsOf (str "ab")) (by decide)

/-- C2 counterexample: the hyphen-joined variation a-b of the entry a b
normalizes to ab, equal to the normalized query ab, yet the scorer does
not return (1.0, Exact) for it (it compares the query against the raw
lowercased variation, and reports a Partial match here). -/
theorem claim_C2_counterexample :
    normalize_text (str "a-b") = str "ab" ∧
      (str "a-b") ∈ varsOf (str "a b") ∧
      (calculate_similarity (str "ab") (str "a b") (str "a-b")).map Prod.snd =
        some "Partial" := by
  refine ⟨by decide, by decide, by decide⟩

/-- C2 (amended): the scorer returns (1.0, Exact), short-circuiting all
further scoring, exactly when the lowercased query equals the lowercased
variation verbatim (not its normalization). -/
theorem claim_C2 (i w v : Str) (h : lowerStr i = lowerStr v) :
    calculate_similarity i w v = some (⟨1, 1⟩, "Exact") :=
  calcSim_exact w h

/-- C2 witness: the amended statement at a concrete query and variation. -/
theorem claim_C2_witness :
    lowerStr (str "ab") = lowerStr (str "ab") ∧
      calculate_similarity (str "ab") (str "x") (str "ab") = some (⟨1, 1⟩, "Exact") :=
  ⟨rfl, claim_C2 (str "ab") (str "x") (str "ab") rfl⟩

/-- C8 counterexample: scoring is not total over all string inputs (a
tokenless dictionary word with a tokenful query raises ValueError,
modelled as none), and the empty-empty ratio guard yields 1, not 0. -/
theorem claim_C8_counterexample :
    calculate_similarity (str "a") (str "") (str "b") = none ∧
      (seq_ratio [] []).toRat ≠ 0 := by
  constructor
  · decide
  · rw [show seq_ratio [] [] = (⟨1, 1⟩ : Frac) from by decide]
    norm_num [Frac.toRat]

/-- C8 (amended): the sequence ratio of two empty strings is defined as 1
by the guard; every sequence ratio and word similarity lies in the unit
interval; and the full scorer is total and unit-bounded whenever the
dictionary word has a token or the query has none (the only exception
being the empty-max error case exhibited by the counterexample). -/
theorem claim_C8 :
    (seq_ratio [] []).toRat = 1 ∧
      (∀ a b : Str, 0 ≤ (seq_ratio a b).toRat ∧ (seq_ratio a b).toRat ≤ 1) ∧
      (∀ w1 w2 : Str, 0 ≤ (calculate_word_similarity w1 w2).toRat ∧
        (calculate_word_similarity w1 w2).toRat ≤ 1) ∧
      (∀ i w v : Str, (pySplit (lowerStr w) ≠ [] ∨ pySplit (lowerStr i) = []) →
        ∃ s t, calculate_similarity i w v = some (s, t) ∧ 0 ≤ s.toRat ∧ s.toRat ≤ 1) := by
  refine ⟨?_, ?_, ?_, ?_⟩
  · rw [show seq_ratio [] [] = (⟨1, 1⟩ : Frac) from by decide]
    norm_num [Frac.toRat]
  · exact fun a b => ⟨seq_ratio_nonneg a b, seq_ratio_le_one a b⟩
  · exact fun w1 w2 => cws_bounds w1 w2
  · intro i w v h
    obtain ⟨s, t, hst⟩ := calcSim_some (i := i) (w := w) v h
    obtain ⟨_, h0, h1, _⟩ := calcSim_facts hst
    exact ⟨s, t, hst, h0, h1⟩

/-- C8 witness: the guarded totality statement applied at concrete
strings. -/
theorem claim_C8_witness :
    (pySplit (lowerStr (str "b")) ≠ [] ∨ pySplit (lowerStr (str "a")) = []) ∧
      ∃ s t, calculate_similarity (str "a") (str "b") (str "c") = some (s, t) ∧
        0 ≤ s.toRat ∧ s.toRat ≤ 1 :=
  ⟨Or.inl (by decide), claim_C8.2.2.2 (str "a") (str "b") (str "c") (Or.inl (by decide))⟩

/-- C6 counterexample: the empty query does not always yield NoMatch.  A
dictionary word of pure punctuation normalizes to the empty string, which
enters its variation set; the empty query then hits it in the exact-match
pass and the matcher returns an Exact match instead of NoMatch. -/
theorem claim_C6_counterexample :
    (∀ c ∈ ([] : Str), pyIsSpace c = true) ∧
      match_text (generate_variations [str "!!!"]) [] =
        some (some ⟨str "!!!", some "Exact", "High"⟩) := by
  constructor
  · simp
  · decide

/-- C6 (amended): an empty or whitespace-only query normalizes to the
empty string and yields NoMatch without error, provided no entry
registers a variation that is empty or has an empty phonetic key (the
counterexample shows the unrestricted claim fails). -/
theorem claim_C6 (dict : List Str) (q : Str)
    (hq : ∀ c ∈ q, pyIsSpace c = true)
    (hdict : ∀ w ∈ dict, ∀ v ∈ varsOf w, v ≠ [] ∧ get_phonetic_key v ≠ []) :
    match_text (generate_variations dict) q = some none := by
  have hnorm : normalize_text q = [] := norm_allspace hq
  have hvars : ∀ e ∈ generate_variations dict, ∀ v ∈ e.2,
      v ≠ [] ∧ get_phonetic_key v ≠ [] := by
    intro e he v hv
    obtain ⟨hw, hv2⟩ := mem_index he
    exact hdict e.1 hw v (hv2 ▸ hv)
  have h1 : pass1 (normalize_text q) (pySplit (normalize_text q))
      (generate_variations dict) = none := by
    rw [hnorm]
    apply pass1_none
    intro e he
    exact contains_nil_false (fun v hv => (hvars e he v hv).1)
  have hguard : ∀ e ∈ generate_variations dict,
      pySplit (lowerStr e.1) ≠ [] ∨ pySplit (lowerStr (normalize_text q)) = [] := by
    intro e _
    right
    rw [hnorm]
    rfl
  obtain ⟨res, h2⟩ := pass2_some hguard (⟨0, 1⟩, none, none)
  obtain ⟨bs, bw, bt⟩ := res
  rcases pass2_spec h2 with heq | ⟨e, he, es, et, hentry, heq⟩
  · have hbw : bw = none := congrArg (fun p => p.2.1) heq
    rw [hbw] at h2
    exact match_text_pass2_none h1 h2
  · have hentry2 : entry_step [] [] e.1 e.2 = some (es, et) := by
      rw [hnorm, show pySplit ([] : Str) = [] from rfl] at hentry
      exact hentry
    rw [entry_empty (fun v hv => hvars e he v hv)] at hentry2
    have hes : entry_tail [] (pySplit (normalize_text e.1)) ⟨0, 1⟩ = es :=
      congrArg Prod.fst (Option.some.inj hentry2)
    have hsmall : es.toRat ≤ 1 / 10 := by
      rw [← hes]
      exact (entry_tail_zero _ _).2
    have hwf : es.WF := by
      rw [← hes]
      exact (entry_tail_zero _ _).1
    have hbse : bs = es := congrArg (fun p => p.1) heq
    have hbw : bw = some e.1 := congrArg (fun p => p.2.1) heq
    rw [hbw] at h2
    rw [match_text_pass2_some h1 h2]
    rw [if_neg]
    intro hcon
    have := (Frac.ble_iff (by simp [Frac.WF]) (hbse ▸ hwf)).mp hcon.2
    rw [hbse] at this
    rw [show Frac.toRat ⟨1, 2⟩ = 1 / 2 from by norm_num [Frac.toRat]] at this
    linarith

/-- C6 witness: the amended statement at a concrete whitespace query and a
well-behaved one-word dictionary. -/
theorem claim_C6_witness :
    (∀ c ∈ str " ", pyIsSpace c = true) ∧
      (∀ w ∈ [str "ab"], ∀ v ∈ varsOf w, v ≠ [] ∧ get_phonetic_key v ≠ []) ∧
      match_text (generate_variations [str "ab"]) (str " ") = some none :=
  ⟨by decide, by decide, claim_C6 [str "ab"] (str " ") (by decide) (by decide)⟩

/-- C5: the confidence classifier agrees with the published table on every
score and match type, and every returned result carries a confidence that
is exactly the table value at the final best similarity and the returned
match type (an Exact result is always High, independently of the score). -/
theorem claim_C5 :
    (∀ (s : Frac) (t : String), (t = "Exact" ∨ t = "Partial" ∨ t = "Phonetic") →
      calculate_confidence s (some t) = conf_table t s) ∧
      (∀ (dict : List Str) (q : Str) (r : MatchRes),
        match_text (generate_variations dict) q = some (some r) →
        ∃ t, (t = "Exact" ∨ t = "Partial" ∨ t = "Phonetic") ∧
          r.match_type = some t ∧
          r.confidence = conf_table t (best_similarity (generate_variations dict) q)) := by
  constructor
  · exact fun s t ht => conf_eq s ht
  · intro dict q r h
    cases hp1 : pass1 (normalize_text q) (pySplit (normalize_text q))
        (generate_variations dict) with
    | some r0 =>
      rw [match_text_pass1 hp1] at h
      have hr : r0 = r := Option.some.inj (Option.some.inj h)
      obtain ⟨ht, hc, _⟩ := pass1_shape hp1
      refine ⟨"Exact", Or.inl rfl, ?_, ?_⟩
      · rw [← hr]
        exact ht
      · rw [← hr, hc]
        rfl
    | none =>
      cases hp2 : pass2 (normalize_text q) (pySplit (normalize_text q))
          (generate_variations dict) (⟨0, 1⟩, none, none) with
      | none =>
        rw [match_text_err hp1 hp2] at h
        cases h
      | some res =>
        obtain ⟨bs, bw, bt⟩ := res
        have hbs := best_similarity_eq hp2
        cases bw with
        | none =>
          rw [match_text_pass2_none hp1 hp2] at h
          cases Option.some.inj h
        | some w =>
          rw [match_text_pass2_some hp1 hp2] at h
          by_cases hcond : w ≠ [] ∧ Frac.ble ⟨1, 2⟩ bs = true
          · rw [if_pos hcond] at h
            have hr : (⟨w, bt, calculate_confidence bs bt⟩ : MatchRes) = r :=
              Option.some.inj (Option.some.inj h)
            rcases pass2_spec hp2 with heq | ⟨e, _, es, et, hentry, heq⟩
            · have hbs0 : bs = ⟨0, 1⟩ := congrArg (fun p => p.1) heq
              rw [hbs0] at hcond
              exact absurd hcond.2 (by decide)
            · have hbse : bs = es := congrArg (fun p => p.1) heq
              have hbte : bt = et := congrArg (fun p => p.2.2) heq
              obtain ⟨heswf, _, _, hetc⟩ := entry_facts hentry
              rcases hetc with hnone | hpart | ⟨v, _, s', t', hcs, het⟩
              · exfalso
                have hsmall := entry_none_small (hnone ▸ hentry)
                have := (Frac.ble_iff (by simp [Frac.WF]) (hbse ▸ heswf)).mp hcond.2
                rw [hbse] at this
                rw [show Frac.toRat ⟨1, 2⟩ = 1 / 2 from by norm_num [Frac.toRat]] at this
                linarith
              · refine ⟨"Partial", Or.inr (Or.inl rfl), ?_, ?_⟩
                · rw [← hr]
                  show bt = some "Partial"
                  rw [hbte, hpart]
                · rw [← hr]
                  show calculate_confidence bs bt = conf_table "Partial" _
                  rw [hbte, hpart, hbs]
                  exact conf_eq bs (Or.inr (Or.inl rfl))
              · have ht3 := (calcSim_facts hcs).2.2.2
                refine ⟨t', ht3, ?_, ?_⟩
                · rw [← hr]
                  show bt = some t'
                  rw [hbte, het]
                · rw [← hr]
                  show calculate_confidence bs bt = conf_table t' _
                  rw [hbte, het, hbs]
                  exact conf_eq bs ht3
          · rw [if_neg hcond] at h
            cases Option.some.inj h

/-- C5 witness: the table correspondence instantiated at a concrete match
result. -/
theorem claim_C5_witness :
    match_text (generate_variations [str "ab"]) (str "ab") =
        some (some ⟨str "ab", some "Exact", "High"⟩) ∧
      ∃ t, (t = "Exact" ∨ t = "Partial" ∨ t = "Phonetic") ∧
        (⟨str "ab", some "Exact", "High"⟩ : MatchRes).match_type = some t ∧
        (⟨str "ab", some "Exact", "High"⟩ : MatchRes).confidence =
          conf_table t (best_similarity (generate_variations [str "ab"]) (str "ab")) :=
  ⟨by decide, claim_C5.2 [str "ab"] (str "ab") ⟨str "ab", some "Exact", "High"⟩ (by decide)⟩

/-- C10: whenever the direct significant-word path of pass 2 sets an entry
score (average significant-token similarity strictly above 0.7), it labels
the entry Partial unconditionally, even if every per-token best came from
phonetic-key comparison; consequently a returned result labelled Phonetic
can only have obtained that label from the full per-variation scorer on
one of the registered variations. -/
theorem claim_C10 :
    (∀ inputWords dictWords : List Str,
      dictWords.filter (fun t => ¬ genericTerms.contains t) ≠ [] →
      inputWords.filter (fun t => ¬ genericTerms.contains t) ≠ [] →
      Frac.blt ⟨7, 10⟩ (favg (sig_matches_of
        (inputWords.filter (fun t => ¬ genericTerms.contains t))
        (dictWords.filter (fun t => ¬ genericTerms.contains t)))) = true →
      (sig_step inputWords dictWords).2 = some "Partial") ∧
      (∀ (dict : List Str) (q : Str) (r : MatchRes),
        match_text (generate_variations dict) q = some (some r) →
        r.match_type = some "Phonetic" →
        ∃ e ∈ generate_variations dict, ∃ v ∈ e.2, ∃ s',
          calculate_similarity (normalize_text q) e.1 v = some (s', "Phonetic") ∧
          r.matched_word = e.1) := by
  constructor
  · exact fun iw dw h1 h2 h3 => sig_step_fires h1 h2 h3
  · intro dict q r h hph
    cases hp1 : pass1 (normalize_text q) (pySplit (normalize_text q))
        (generate_variations dict) with
    | some r0 =>
      rw [match_text_pass1 hp1] at h
      have hr : r0 = r := Option.some.inj (Option.some.inj h)
      have hex := (pass1_shape hp1).1
      rw [hr, hph] at hex
      exact absurd (Option.some.inj hex) (by decide)
    | none =>
      cases hp2 : pass2 (normalize_text q) (pySplit (normalize_text q))
          (generate_variations dict) (⟨0, 1⟩, none, none) with
      | none =>
        rw [match_text_err hp1 hp2] at h
        cases h
      | some res =>
        obtain ⟨bs, bw, bt⟩ := res
        cases bw with
        | none =>
          rw [match_text_pass2_none hp1 hp2] at h
          cases Option.some.inj h
        | some w =>
          rw [match_text_pass2_some hp1 hp2] at h
          by_cases hcond : w ≠ [] ∧ Frac.ble ⟨1, 2⟩ bs = true
          · rw [if_pos hcond] at h
            have hr : (⟨w, bt, calculate_confidence bs bt⟩ : MatchRes) = r :=
              Option.some.inj (Option.some.inj h)
            have hbt : bt = some "Phonetic" := by
              rw [← hph, ← hr]
            rcases pass2_spec hp2 with heq | ⟨e, he, es, et, hentry, heq⟩
            · have : bt = none := congrArg (fun p => p.2.2) heq
              rw [this] at hbt
              cases hbt
            · have hbte : bt = et := congrArg (fun p => p.2.2) heq
              have hwe : some w = some e.1 := congrArg (fun p => p.2.1) heq
              obtain ⟨_, _, _, hetc⟩ := entry_facts hentry
              rcases hetc with hnone | hpart | ⟨v, hv, s', t', hcs, het⟩
              · rw [hnone] at hbte
                rw [hbte] at hbt
                cases hbt
              · rw [hpart] at hbte
                rw [hbte] at hbt
                exact absurd (Option.some.inj hbt) (by decide)
              · have ht' : t' = "Phonetic" := by
                  rw [het] at hbte
                  rw [hbte] at hbt
                  exact Option.some.inj hbt
                refine ⟨e, he, v, hv, s', ?_, ?_⟩
                · rw [← ht']
                  exact hcs
                · rw [← hr]
                  show w = e.1
                  exact Option.some.inj hwe
          · rw [if_neg hcond] at h
            cases Option.some.inj h

/-- C10 witness: the Partial labelling of the significant-word path at a
concrete pair whose per-token similarity is phonetic, and a concrete
Phonetic result traced back to a scored variation. -/
theorem claim_C10_witness :
    (((([str "abcd", str "efgh"] : List Str).filter
          (fun t => ¬ genericTerms.contains t) ≠ []) ∧
      (([str "abcd"] : List Str).filter (fun t => ¬ genericTerms.contains t) ≠ []) ∧
      Frac.blt ⟨7, 10⟩ (favg (sig_matches_of
        (([str "abcd"] : List Str).filter (fun t => ¬ genericTerms.contains t))
        (([str "abcd", str "efgh"] : List Str).filter
          (fun t => ¬ genericTerms.contains t)))) = true ∧
      (sig_step [str "abcd"] [str "abcd", str "efgh"]).2 = some "Partial") ∧
    (match_text (generate_variations [str "cafe"]) (str "coffee") =
        some (some ⟨str "cafe", some "Phonetic", "Medium"⟩) ∧
      ∃ e ∈ generate_variations [str "cafe"], ∃ v ∈ e.2, ∃ s',
        calculate_similarity (normalize_text (str "coffee")) e.1 v = some (s', "Phonetic") ∧
        (⟨str "cafe", some "Phonetic", "Medium"⟩ : MatchRes).matched_word = e.1)) := by
  refine ⟨⟨by decide, by decide, by decide, ?_⟩, by decide, ?_⟩
  · exact claim_C10.1 [str "abcd"] [str "abcd", str "efgh"] (by decide) (by decide) (by decide)
  · exact claim_C10.2 [str "cafe"] (str "coffee") ⟨str "cafe", some "Phonetic", "Medium"⟩
      (by decide) rfl

/-- C1 (amended): over an index whose words all survive normalization, a
match call never raises, and a result with matched word present is
returned exactly when the exact-match pass accepts the query or the final
(post-penalty, post-boost) best similarity reaches 0.5.  The NoMatch case
is the absent inner result, so the match type is NoMatch exactly when the
matched word is absent by the shape of the result type.  The
counterexample shows the stated equivalence fails without the
exact-match-pass disjunct. -/
theorem claim_C1 (dict : List Str) (q : Str)
    (hdict : ∀ w ∈ dict, normalize_text w ≠ []) :
    match_text (generate_variations dict) q ≠ none ∧
      ((∃ r, match_text (generate_variations dict) q = some (some r)) ↔
        (pass1 (normalize_text q) (pySplit (normalize_text q))
            (generate_variations dict) ≠ none ∨
          1 / 2 ≤ (best_similarity (generate_variations dict) q).toRat)) := by
  have hguard : ∀ e ∈ generate_variations dict,
      pySplit (lowerStr e.1) ≠ [] ∨ pySplit (lowerStr (normalize_text q)) = [] :=
    fun e he => Or.inl (norm_ne_nil_split (hdict e.1 (mem_index he).1))
  cases hp1 : pass1 (normalize_text q) (pySplit (normalize_text q))
      (generate_variations dict) with
  | some r0 =>
    rw [match_text_pass1 hp1]
    refine ⟨by simp, ?_, ?_⟩
    · intro _
      exact Or.inl (by simp)
    · intro _
      exact ⟨r0, rfl⟩
  | none =>
    obtain ⟨res, hp2⟩ := pass2_some hguard (⟨0, 1⟩, none, none)
    obtain ⟨bs, bw, bt⟩ := res
    have hbs := best_similarity_eq hp2
    rcases pass2_spec hp2 with heq | ⟨e, he, es, et, hentry, heq⟩
    · have hbw : bw = none := congrArg (fun p => p.2.1) heq
      have hbs0 : bs = ⟨0, 1⟩ := congrArg (fun p => p.1) heq
      rw [hbw] at hp2
      rw [match_text_pass2_none hp1 hp2]
      refine ⟨by simp, ?_, ?_⟩
      · rintro ⟨r, hr⟩
        cases Option.some.inj hr
      · rintro (hcase | hcase)
        · exact absurd rfl hcase
        · exfalso
          rw [hbs, hbs0] at hcase
          norm_num [Frac.toRat] at hcase
    · have hbse : bs = es := congrArg (fun p => p.1) heq
      have hbw : bw = some e.1 := congrArg (fun p => p.2.1) heq
      have hwne : e.1 ≠ [] := norm_ne_nil_w (hdict e.1 (mem_index he).1)
      have heswf : es.WF := (entry_facts hentry).1
      rw [hbw] at hp2
      rw [match_text_pass2_some hp1 hp2]
      by_cases hble : Frac.ble ⟨1, 2⟩ bs = true
      · rw [if_pos ⟨hwne, hble⟩]
        refine ⟨by simp, ?_, ?_⟩
        · intro _
          right
          rw [hbs]
          have := (Frac.ble_iff (by simp [Frac.WF]) (hbse ▸ heswf)).mp hble
          rw [show Frac.toRat ⟨1, 2⟩ = 1 / 2 from by norm_num [Frac.toRat]] at this
          exact this
        · intro _
          exact ⟨_, rfl⟩
      · rw [if_neg (fun hc => hble hc.2)]
        refine ⟨by simp, ?_, ?_⟩
        · rintro ⟨r, hr⟩
          cases Option.some.inj hr
        · rintro (hcase | hcase)
          · exact absurd rfl hcase
          · exfalso
            apply hble
            rw [hbs] at hcase
            apply (Frac.ble_iff (by simp [Frac.WF]) (hbse ▸ heswf)).mpr
            rw [show Frac.toRat ⟨1, 2⟩ = 1 / 2 from by norm_num [Frac.toRat]]
            exact hcase

/-- C1 witness: the amended statement at a one-word dictionary. -/
theorem claim_C1_witness :
    (∀ w ∈ [str "ab"], normalize_text w ≠ []) ∧
      (match_text (generate_variations [str "ab"]) (str "ab") ≠ none ∧
        ((∃ r, match_text (generate_variations [str "ab"]) (str "ab") = some (some r)) ↔
          (pass1 (normalize_text (str "ab")) (pySplit (normalize_text (str "ab")))
              (generate_variations [str "ab"]) ≠ none ∨
            1 / 2 ≤ (best_similarity (generate_variations [str "ab"]) (str "ab")).toRat))) :=
  ⟨by decide, claim_C1 [str "ab"] (str "ab") (by decide)⟩

/-- C1 counterexample: a nine-token entry registers the all-generic
contiguous slice coffee shop as a variation, so the exact-match pass
returns a result with the matched word present; yet the final
post-penalty, post-boost best similarity of pass 2 is 2/5, below the 0.5
floor, refuting the stated equivalence. -/
theorem claim_C1_counterexample :
    match_text (generate_variations [str "q coffee shop w e r t y u"])
        (str "coffee shop") =
      some (some ⟨str "q coffee shop w e r t y u", some "Exact", "High"⟩) ∧
      (best_similarity (generate_variations [str "q coffee shop w e r t y u"])
        (str "coffee shop")).toRat < 1 / 2 := by
  constructor
  · decide
  · have hinput : normalize_text (str "coffee shop") = str "coffee shop" := by decide
    have hWsplit : pySplit (lowerStr (str "q coffee shop w e r t y u")) ≠ [] := by decide
    have hsig : sig_step (pySplit (normalize_text (str "coffee shop")))
        (pySplit (normalize_text (str "q coffee shop w e r t y u"))) = (⟨0, 1⟩, none) := by
      decide
    obtain ⟨res, hloop⟩ := @var_loop_some
      (normalize_text (str "coffee shop"))
      (str "q coffee shop w e r t y u")
      (varsOf (str "q coffee shop w e r t y u"))
      (fun v _ => calcSim_some v (Or.inl hWsplit)) (⟨0, 1⟩, none)
    obtain ⟨s1, t1⟩ := res
    have hmem : (str "coffee shop") ∈ varsOf (str "q coffee shop w e r t y u") := by decide
    have hexact : calculate_similarity (normalize_text (str "coffee shop"))
        (str "q coffee shop w e r t y u") (str "coffee shop") =
        some (⟨1, 1⟩, "Exact") := by
      apply calcSim_exact
      rw [hinput]
    have hmono := var_loop_mono (by simp [Frac.WF]) hloop
    have hge : (1 : ℚ) ≤ s1.toRat := by
      have := hmono.2 (str "coffee shop") hmem ⟨1, 1⟩ "Exact" hexact
      rw [show Frac.toRat ⟨1, 1⟩ = 1 from by norm_num [Frac.toRat]] at this
      exact this
    have hle : s1.toRat ≤ 1 := var_loop_le_one (by norm_num [Frac.toRat]) hloop
    have hs1 : s1.toRat = 1 := le_antisymm hle hge
    have hs1wf : s1.WF := var_loop_wf (by simp [Frac.WF]) hloop
    -- the penalty and boost tail on this entry
    have hpen : length_pen (pySplit (normalize_text (str "coffee shop")))
        (pySplit (normalize_text (str "q coffee shop w e r t y u"))) = ⟨7, 10⟩ := by
      decide
    have htail : entry_tail (pySplit (normalize_text (str "coffee shop")))
        (pySplit (normalize_text (str "q coffee shop w e r t y u"))) s1 =
        fmin ⟨1, 1⟩ (Frac.add (fmax ⟨0, 1⟩ (Frac.sub s1 ⟨7, 10⟩)) ⟨1, 10⟩) := by
      unfold entry_tail
      dsimp only
      rw [hpen]
      rw [if_pos (by decide :
        (pySplit (normalize_text (str "q coffee shop w e r t y u"))).length > 1)]
      rw [if_pos (by decide :
        (pySplit (normalize_text (str "coffee shop"))).all
          (fun t => (pySplit (normalize_text (str "q coffee shop w e r t y u"))).contains t)
          = true)]
    have hsub_wf : (Frac.sub s1 ⟨7, 10⟩).WF := Frac.wf_sub hs1wf (by simp [Frac.WF])
    have hmax_wf : (fmax ⟨0, 1⟩ (Frac.sub s1 ⟨7, 10⟩)).WF :=
      fmax_wf (by simp [Frac.WF]) hsub_wf
    have hadd_wf : (Frac.add (fmax ⟨0, 1⟩ (Frac.sub s1 ⟨7, 10⟩)) ⟨1, 10⟩).WF :=
      Frac.wf_add hmax_wf (by simp [Frac.WF])
    have htail_wf : (fmin ⟨1, 1⟩ (Frac.add (fmax ⟨0, 1⟩ (Frac.sub s1 ⟨7, 10⟩)) ⟨1, 10⟩)).WF :=
      fmin_wf (by simp [Frac.WF]) hadd_wf
    have htail_val : (fmin ⟨1, 1⟩ (Frac.add (fmax ⟨0, 1⟩ (Frac.sub s1 ⟨7, 10⟩)) ⟨1, 10⟩)).toRat
        = 2 / 5 := by
      rw [toRat_fmin (by simp [Frac.WF]) hadd_wf,
        Frac.toRat_add hmax_wf (by simp [Frac.WF]),
        toRat_fmax (by simp [Frac.WF]) hsub_wf,
        Frac.toRat_sub hs1wf (by simp [Frac.WF]), hs1]
      norm_num [Frac.toRat]
    -- assemble the entry step
    have hentry : entry_step (normalize_text (str "coffee shop"))
        (pySplit (normalize_text (str "coffee shop")))
        (str "q coffee shop w e r t y u")
        (varsOf (str "q coffee shop w e r t y u")) =
        some (fmin ⟨1, 1⟩ (Frac.add (fmax ⟨0, 1⟩ (Frac.sub s1 ⟨7, 10⟩)) ⟨1, 10⟩), t1) := by
      unfold entry_step
      dsimp only
      rw [hsig]
      rw [if_pos (by decide : Frac.blt (⟨0, 1⟩ : Frac) ⟨4, 5⟩ = true)]
      rw [hloop]
      dsimp only
      rw [htail]
    -- assemble pass 2 over the one-entry index
    have hgen : generate_variations [str "q coffee shop w e r t y u"] =
        [(str "q coffee shop w e r t y u", varsOf (str "q coffee shop w e r t y u"))] := by
      rfl
    have hp2 : pass2 (normalize_text (str "coffee shop"))
        (pySplit (normalize_text (str "coffee shop")))
        (generate_variations [str "q coffee shop w e r t y u"]) (⟨0, 1⟩, none, none) =
        some (fmin ⟨1, 1⟩ (Frac.add (fmax ⟨0, 1⟩ (Frac.sub s1 ⟨7, 10⟩)) ⟨1, 10⟩),
          some (str "q coffee shop w e r t y u"), t1) := by
      rw [hgen]
      unfold pass2
      rw [hentry]
      dsimp only
      rw [if_pos (by
        apply (Frac.blt_iff (by simp [Frac.WF]) htail_wf).mpr
        rw [htail_val]
        norm_num [Frac.toRat])]
      rfl
    rw [best_similarity_eq hp2, htail_val]
    norm_num

end DialByName
